import Mathlib

/-!
Verification of the crosh mirror mutators.

The repository contains five "mutators" (npm, pip, cargo, docker, go) that
each rewrite one configuration file.  Their cores are pure text transforms:
read the file, split it into lines, scan the lines with a small amount of
state, rejoin and rewrite.  We embed those transforms here.

Text is modelled as `List Char` (named `Str`); a file is `Option Str`
(`none` = the file is absent).  Go's `strings` helpers used by the source
(`Split` on `"\n"`, `Join`, `TrimSpace`, `HasPrefix`, `HasSuffix`,
`Contains`, `TrimPrefix`, `SplitN(_, "=", 2)`, `Trim(_, "\"")`) are
reimplemented below on `List Char` so that every proof can proceed by
ordinary list induction and every concrete claim can be evaluated by
`decide`.
-/

/-- Text as a list of characters. -/
abbrev Str := List Char

/-- View of a Lean string literal as a `Str`. -/
def str (s : String) : Str := s.data

/-- Content a read of a possibly-absent file yields: Go's `os.ReadFile`
error path leaves `existingContent` at the empty string. -/
def fileText : Option Str → Str
  | none => []
  | some s => s

/-- ASCII whitespace, matching the characters Go's `unicode.IsSpace`
recognises in the ASCII range (space, tab, newline, carriage return,
vertical tab, form feed).  The configuration files at issue are ASCII. -/
def isSpaceChar (c : Char) : Bool :=
  c = ' ' || c = '\t' || c = '\n' || c = '\r' ||
  c = Char.ofNat 11 || c = Char.ofNat 12

/-- Left half of Go's `strings.TrimSpace`. -/
def trimLeftWs (s : Str) : Str := s.dropWhile isSpaceChar

/-- Right half of Go's `strings.TrimSpace`. -/
def trimRightWs (s : Str) : Str := (s.reverse.dropWhile isSpaceChar).reverse

/-- Go's `strings.TrimSpace`. -/
def trimSpace (s : Str) : Str := trimRightWs (trimLeftWs s)

/-- Go's `strings.HasPrefix s pat`. -/
def startsWith (s pat : Str) : Bool := pat.isPrefixOf s

/-- Go's `strings.HasSuffix s pat`. -/
def endsWith (s pat : Str) : Bool := pat.isSuffixOf s

/-- Go's `strings.Contains s pat` (substring test). -/
def containsSub (s pat : Str) : Bool := s.tails.any (fun t => pat.isPrefixOf t)

/-- Go's `strings.TrimPrefix s pat`: drop `pat` when it leads `s`. -/
def trimLeadPat (s pat : Str) : Str :=
  if pat.isPrefixOf s then s.drop pat.length else s

/-- Go's `strings.Trim s "\""`: strip a run of `c` from both ends. -/
def trimChar (c : Char) (s : Str) : Str :=
  ((s.dropWhile (· == c)).reverse.dropWhile (· == c)).reverse

/-- Go's `strings.SplitN t "=" 2`, reduced to the only fact the source
uses: `none` when `t` has no `'='`, otherwise the parts before and after
the first `'='`. -/
def splitEq1 : Str → Option (Str × Str)
  | [] => none
  | c :: rest =>
    if c = '=' then some ([], rest)
    else match splitEq1 rest with
      | none => none
      | some (a, b) => some (c :: a, b)

/-- Go's `strings.Split s "\n"`. -/
def splitLines : Str → List Str
  | [] => [[]]
  | c :: rest =>
    let r := splitLines rest
    if c = '\n' then [] :: r
    else (c :: r.headI) :: r.tail

/-- Go's `strings.Join L "\n"`. -/
def joinLines : List Str → Str
  | [] => []
  | [l] => l
  | l :: l' :: ls => l ++ '\n' :: joinLines (l' :: ls)

/-! ### npm mutator (`NPMMirror`, line-oriented `key=value` file)

Embeds `NPMMirror.Enable`, `NPMMirror.Disable`, `NPMMirror.Status` from
the source.  The file operations are factored out: the functions map the
old file state (`Option Str`, `none` = absent) to the new one. -/

/-- The managed npm key, `"registry="`. -/
def registryKey : Str := str "registry="

/-- The line `Enable` writes: `registry=<url>`. -/
def registryLine (u : Str) : Str := str "registry=" ++ u

/-- The test `strings.HasPrefix(strings.TrimSpace(line), "registry=")`
used by all three npm operations. -/
def npmMatch (l : Str) : Bool := startsWith (trimSpace l) registryKey

/-- The scan loop of `NPMMirror.Enable`: replace every matching line with
`registry=<url>`, drop blank lines, and report whether a match was seen.
The per-line decision is state-free, so the Go left-to-right loop is
expressed as structural recursion. -/
def npmLoop (u : Str) : List Str → List Str × Bool
  | [] => ([], false)
  | l :: ls =>
    let r := npmLoop u ls
    if npmMatch l then (registryLine u :: r.1, true)
    else if trimSpace l ≠ [] then (l :: r.1, r.2)
    else r

/-- `NPMMirror.Enable` at the line level: scan, then append the managed
line when no match was found. -/
def npmEnableLines (u : Str) (lines : List Str) : List Str :=
  let r := npmLoop u lines
  if r.2 then r.1 else r.1 ++ [registryLine u]

/-- `NPMMirror.Enable` as a file transform: the file always gets written,
with `strings.Join(newLines, "\n") + "\n"` as its content. -/
def npmEnable (u : Str) (file : Option Str) : Str :=
  joinLines (npmEnableLines u (splitLines (fileText file))) ++ ['\n']

/-- The filter loop of `NPMMirror.Disable`: keep exactly the lines that
neither match `registry=` nor are blank. -/
def npmDisableLines : List Str → List Str
  | [] => []
  | l :: ls =>
    if ¬ npmMatch l ∧ trimSpace l ≠ [] then l :: npmDisableLines ls
    else npmDisableLines ls

/-- `NPMMirror.Disable` as a file transform: absent stays absent; when the
kept lines are empty the file is removed (`os.Remove`), else rewritten. -/
def npmDisable (file : Option Str) : Option Str :=
  match file with
  | none => none
  | some content =>
    let newLines := npmDisableLines (splitLines content)
    if newLines.length > 0 then some (joinLines newLines ++ ['\n']) else none

/-- The scan of `NPMMirror.Status`: the value after `registry=` on the
first matching line. -/
def npmStatusLoop : List Str → Option Str
  | [] => none
  | l :: ls =>
    let t := trimSpace l
    if startsWith t registryKey then some (trimLeadPat t registryKey)
    else npmStatusLoop ls

/-- `NPMMirror.Status` (read-only): `(enabled, description)`. -/
def npmStatus (file : Option Str) : Bool × Str :=
  match file with
  | none => (false, str "default registry")
  | some content =>
    match npmStatusLoop (splitLines content) with
    | some v => (true, v)
    | none => (false, str "default registry")

/-- Spec-shaped restatement of the npm Enable rewrite, following the words
of the claim (replace all matches, drop blanks keeping foreign order,
append when no match existed); to be proved equal to `npmEnableLines`. -/
def npmEnableSpec (u : Str) (lines : List Str) : List Str :=
  let kept := lines.filter (fun l => npmMatch l || !(trimSpace l).isEmpty)
  let replaced := kept.map (fun l => if npmMatch l then registryLine u else l)
  if lines.any npmMatch then replaced else replaced ++ [registryLine u]

/-- Spec-shaped restatement of the npm Status scan: the first matching
line only governs the result. -/
def npmStatusSpec (lines : List Str) : Option Str :=
  (lines.find? npmMatch).map (fun l => trimLeadPat (trimSpace l) registryKey)

/-! ### pip mutator (`PipMirror`, INI `[global]` section)

Embeds `PipMirror.Enable`, `PipMirror.Disable`, `PipMirror.Status`.  The
Enable loop carries three booleans (`hasGlobalSection`, `hasIndexURL`,
`inGlobalSection`); they become an explicit state record threaded through
the recursion. -/

/-- The `[global]` section header. -/
def globalHeader : Str := str "[global]"

/-- The managed pip key, `"index-url"`. -/
def indexKey : Str := str "index-url"

/-- The line `Enable` writes: `index-url = <url>`. -/
def indexLine (u : Str) : Str := str "index-url = " ++ u

/-- A single `"["`, the section-header test character. -/
def lbrack : Str := str "["

/-- The mutable flags of the `PipMirror.Enable` loop. -/
structure PipSt where
  hasGlobal : Bool
  hasIndexURL : Bool
  inGlobal : Bool
deriving DecidableEq, Repr

/-- Initial flags of the `PipMirror.Enable` loop: all false. -/
def pipInit : PipSt := ⟨false, false, false⟩

/-- One iteration of the `PipMirror.Enable` loop, in the source's branch
order: `[global]` header, other `[...]` header (with the insert-before
rule), in-section `index-url` replacement, keep non-blank, drop blank.
Returns the emitted lines and the updated flags. -/
def pipStep (u : Str) (st : PipSt) (line : Str) : List Str × PipSt :=
  let t := trimSpace line
  if t = globalHeader then
    ([line], { st with hasGlobal := true, inGlobal := true })
  else if startsWith t lbrack ∧ ¬ t = globalHeader then
    if st.inGlobal ∧ st.hasIndexURL = false then
      ([indexLine u, line], { st with hasIndexURL := true, inGlobal := false })
    else
      ([line], { st with inGlobal := false })
  else if st.inGlobal ∧ startsWith t indexKey then
    ([indexLine u], { st with hasIndexURL := true })
  else if ¬ t = [] then ([line], st)
  else ([], st)

/-- The whole `PipMirror.Enable` loop. -/
def pipLoop (u : Str) : List Str → PipSt → List Str × PipSt
  | [], st => ([], st)
  | l :: ls, st =>
    let p := pipStep u st l
    let r := pipLoop u ls p.2
    (p.1 ++ r.1, r.2)

/-- The lines `PipMirror.Enable` appends after the loop: a fresh
`[global]` section when none existed, else a bare `index-url` when none
was written. -/
def pipTail (u : Str) (st : PipSt) : List Str :=
  if st.hasGlobal = false then [globalHeader, indexLine u]
  else if st.hasIndexURL = false then [indexLine u]
  else []

/-- `PipMirror.Enable` at the line level. -/
def pipEnableLines (u : Str) (lines : List Str) : List Str :=
  let r := pipLoop u lines pipInit
  r.1 ++ pipTail u r.2

/-- `PipMirror.Enable` as a file transform (the file always gets
written, with trailing newline). -/
def pipEnable (u : Str) (file : Option Str) : Str :=
  joinLines (pipEnableLines u (splitLines (fileText file))) ++ ['\n']

/-- The filter loop of `PipMirror.Disable`: keep exactly the lines that
neither start (trimmed) with `index-url` nor are blank. -/
def pipDisableLines : List Str → List Str
  | [] => []
  | l :: ls =>
    if ¬ startsWith (trimSpace l) indexKey = true ∧ ¬ trimSpace l = [] then
      l :: pipDisableLines ls
    else pipDisableLines ls

/-- `PipMirror.Disable` as a file transform: absent stays absent; an
emptied file is removed, else rewritten with trailing newline. -/
def pipDisable (file : Option Str) : Option Str :=
  match file with
  | none => none
  | some content =>
    let newLines := pipDisableLines (splitLines content)
    if newLines.length > 0 then some (joinLines newLines ++ ['\n']) else none

/-- The scan of `PipMirror.Status`: first trimmed line starting with
`index-url` that also contains `'='`; its right-hand side, trimmed. -/
def pipStatusLoop : List Str → Option Str
  | [] => none
  | l :: ls =>
    let t := trimSpace l
    if startsWith t indexKey then
      match splitEq1 t with
      | some p => some (trimSpace p.2)
      | none => pipStatusLoop ls
    else pipStatusLoop ls

/-- The `(enabled, description)` result of `PipMirror.Status`. -/
def pipStatusResult (file : Option Str) : Bool × Str :=
  match file with
  | none => (false, str "default index")
  | some content =>
    match pipStatusLoop (splitLines content) with
    | some v => (true, v)
    | none => (false, str "default index")

/-- A one-file, one-directory filesystem fragment: the managed file plus
the existence of its parent configuration directory. -/
structure DirFS where
  dirExists : Bool
  file : Option Str
deriving DecidableEq, Repr

/-- `PipMirror.Status` with its filesystem effect: `getPipConfigPath`
runs `os.MkdirAll` on `~/.config/pip` before the read, so the parent
directory exists afterwards; the file itself is only read. -/
def pipStatus (fs : DirFS) : DirFS × Bool × Str :=
  (⟨true, fs.file⟩, pipStatusResult fs.file)

/-- The structural invariant of the pip Enable flags: `index-url` can
only have been written inside `[global]`, and while no `index-url` was
written the scan is inside `[global]` exactly when the section was seen. -/
def pipInv (st : PipSt) : Prop :=
  (st.hasIndexURL = false → st.inGlobal = st.hasGlobal) ∧
  (st.hasIndexURL = true → st.hasGlobal = true)

/-! ### cargo mutator (`CargoMirror`, TOML `[source.*]` tables)

Embeds `CargoMirror.Enable`, `CargoMirror.Disable`, `CargoMirror.Status`.
The Enable loop keeps three booleans plus the accumulated output (whose
emptiness one branch inspects), and consults two whole-file substring
tests on the original content (`replace-with`, `[source.ustc]`). -/

/-- The `[source.crates-io]` header. -/
def cratesIOHeader : Str := str "[source.crates-io]"

/-- The `[source.` header prefix tested by the scan. -/
def sourceDot : Str := str "[source."

/-- The `[source.ustc]` header. -/
def ustcHeader : Str := str "[source.ustc]"

/-- An ASCII single quote (written by code point to keep the sources
plain). -/
def squote : Char := Char.ofNat 39

/-- The managed cargo key `replace-with`. -/
def rwKey : Str := str "replace-with"

/-- The fixed line `Enable` writes into `[source.crates-io]`:
`replace-with = 'ustc'`. -/
def rwLine : Str := str "replace-with = " ++ squote :: str "ustc" ++ [squote]

/-- The line `Enable` writes into `[source.ustc]`:
`registry = "<url>"`. -/
def cargoRegistryLine (u : Str) : Str := str "registry = \"" ++ u ++ str "\""

/-- The mutable flags of the `CargoMirror.Enable` loop. -/
structure CargoSt where
  hasSource : Bool
  hasCrates : Bool
  inCrates : Bool
deriving DecidableEq, Repr

/-- Initial flags of the `CargoMirror.Enable` loop: all false. -/
def cargoInit : CargoSt := ⟨false, false, false⟩

/-- One iteration of the `CargoMirror.Enable` loop, in the source's branch
order.  `noRW` is the loop-constant whole-file test
`!strings.Contains(existingContent, "replace-with")`; `accNil` is
`len(newLines) == 0` at this iteration. -/
def cargoStep (noRW accNil : Bool) (st : CargoSt) (l : Str) : List Str × CargoSt :=
  let t := trimSpace l
  if t = cratesIOHeader then
    ([l], ⟨true, true, true⟩)
  else if startsWith t sourceDot = true ∧ ¬ t = cratesIOHeader then
    ([l], { st with inCrates := false })
  else if startsWith t lbrack = true ∧ ¬ startsWith t sourceDot = true then
    ((if st.inCrates = true ∧ noRW = true then [rwLine, l] else [l]),
     { st with inCrates := false })
  else if st.inCrates = true ∧ startsWith t rwKey = true then
    ([rwLine], st)
  else if ¬ t = [] ∨ accNil = true then ([l], st)
  else ([], st)

/-- The whole `CargoMirror.Enable` loop, threading the accumulator. -/
def cargoLoop (noRW : Bool) : List Str → List Str → CargoSt → List Str × CargoSt
  | [], acc, st => (acc, st)
  | l :: ls, acc, st =>
    let p := cargoStep noRW acc.isEmpty st l
    cargoLoop noRW ls (acc ++ p.1) p.2

/-- The full `[source.crates-io]` + `[source.ustc]` block appended when
the crates-io section was missing, with the blank-separator handling of
the source (`newLines[len(newLines)-1] != ""`). -/
def cargoAppendNew (u : Str) (acc : List Str) : List Str :=
  let acc1 := if acc.length > 0 ∧ ¬ acc.getLastD [] = [] then acc ++ [[]] else acc
  acc1 ++ [cratesIOHeader, rwLine, [], ustcHeader, cargoRegistryLine u]

/-- `CargoMirror.Enable` at the line level (takes the whole original
content because two branch tests are whole-file substring tests). -/
def cargoEnableLines (u : Str) (content : Str) : List Str :=
  let r := cargoLoop (!containsSub content rwKey) (splitLines content) [] cargoInit
  if ¬ r.2.hasSource = true ∨ ¬ r.2.hasCrates = true then
    cargoAppendNew u r.1
  else if ¬ containsSub content ustcHeader = true then
    r.1 ++ [[], ustcHeader, cargoRegistryLine u]
  else r.1

/-- `CargoMirror.Enable` as a file transform (always written, trailing
newline added). -/
def cargoEnable (u : Str) (file : Option Str) : Str :=
  joinLines (cargoEnableLines u (fileText file)) ++ ['\n']

/-- The filter loop of `CargoMirror.Disable`: drop the two managed
sections wholesale and every blank line. -/
def cargoDisableLines : List Str → Bool → List Str
  | [], _ => []
  | l :: ls, skip =>
    let t := trimSpace l
    if t = cratesIOHeader ∨ t = ustcHeader then cargoDisableLines ls true
    else
      let skip1 := if startsWith t lbrack = true then false else skip
      if skip1 = false ∧ ¬ t = [] then l :: cargoDisableLines ls skip1
      else cargoDisableLines ls skip1

/-- `CargoMirror.Disable` as a file transform. -/
def cargoDisable (file : Option Str) : Option Str :=
  match file with
  | none => none
  | some content =>
    let newLines := cargoDisableLines (splitLines content) false
    if newLines.length > 0 then some (joinLines newLines ++ ['\n']) else none

/-- The scan of `CargoMirror.Status`: first trimmed line that starts with
`registry` and contains `'='`; its right side, trimmed and unquoted. -/
def cargoStatusLoop : List Str → Option Str
  | [] => none
  | l :: ls =>
    let t := trimSpace l
    if startsWith t (str "registry") then
      match splitEq1 t with
      | some p => some (trimChar (Char.ofNat 34) (trimSpace p.2))
      | none => cargoStatusLoop ls
    else cargoStatusLoop ls

/-- The `(enabled, description)` result of `CargoMirror.Status`: the scan
runs only when the whole file contains `[source.ustc]`, but then ranges
over every line of the file from the top. -/
def cargoStatusResult (file : Option Str) : Bool × Str :=
  match file with
  | none => (false, str "default registry")
  | some content =>
    if containsSub content ustcHeader = true then
      match cargoStatusLoop (splitLines content) with
      | some v => (true, v)
      | none => (false, str "default registry")
    else (false, str "default registry")

/-- `CargoMirror.Status` with its filesystem effect: `getCargoConfigPath`
runs `os.MkdirAll` on `~/.cargo` before the read. -/
def cargoStatus (fs : DirFS) : DirFS × Bool × Str :=
  (⟨true, fs.file⟩, cargoStatusResult fs.file)

/-- The match a `cargoStatusLoop` hit requires: trimmed line starts with
`registry` and contains an `'='`. -/
def cargoStatusMatch (l : Str) : Bool :=
  startsWith (trimSpace l) (str "registry") && (splitEq1 (trimSpace l)).isSome

/-! ### go mutator (`GoMirror`, environment variable plus shell rc file)

Embeds `GoMirror.Enable`, `GoMirror.Disable`, `GoMirror.Status`.  The rc
file is the target file; the `GOPROXY` process environment variable is a
separate input (Go's `os.Getenv` yields `""` when unset). -/

/-- The search key of the go mutator: `"export GOPROXY="`. -/
def exportKey : Str := str "export GOPROXY="

/-- The line `Enable` writes: `export GOPROXY=<url>`. -/
def exportLine (v : Str) : Str := str "export GOPROXY=" ++ v

/-- The ownership sentinel comment `# Added by crosh`. -/
def croshSentinel : Str := str "# Added by crosh"

/-- `GoMirror.Enable` on the rc file: replace every line containing
`export GOPROXY=` when the file contains that substring, else append a
blank-separated sentinel block (the replace path writes the joined lines
with no extra trailing newline; the append path ends with one). -/
def goEnable (v : Str) (rc : Option Str) : Str :=
  let existing := fileText rc
  if containsSub existing exportKey = true then
    joinLines ((splitLines existing).map
      (fun l => if containsSub l exportKey = true then exportLine v else l))
  else
    let e1 := if endsWith existing (str "\n") = true then existing
              else existing ++ ['\n']
    e1 ++ '\n' :: (croshSentinel ++ '\n' :: (exportLine v ++ ['\n']))

/-- The filter loop of `GoMirror.Disable`: drop the sentinel line, the
export line right after it, and any other line containing the key. -/
def goDisableLines : List Str → Bool → List Str
  | [], _ => []
  | l :: ls, skipNext =>
    if trimSpace l = croshSentinel then goDisableLines ls true
    else if skipNext = true ∧ containsSub l exportKey = true then
      goDisableLines ls false
    else if ¬ containsSub l exportKey = true then l :: goDisableLines ls skipNext
    else goDisableLines ls skipNext

/-- `GoMirror.Disable` on the rc file: absent file is left absent (the
read error returns early); otherwise the kept lines are written back,
with no trailing newline added. -/
def goDisable (rc : Option Str) : Option Str :=
  match rc with
  | none => none
  | some content =>
    some (joinLines (goDisableLines (splitLines content) false))

/-- `GoMirror.Status`: reads only the `GOPROXY` environment variable; the
rc-file argument is taken (the mutator has access to it) but never used,
exactly as in the source. -/
def goStatus (env : Str) (rc : Option Str) : Bool × Str :=
  if ¬ env = [] then (true, env) else (false, str "default proxy")

/-! ### docker mutator (`DockerMirror`, JSON object file)

Embeds `DockerMirror.Enable`, `DockerMirror.Disable`,
`DockerMirror.Status`.  `encoding/json` is the Go standard library, not
repository code; the file is therefore modelled as the code observes it
through `json.Unmarshal`: absent, unparsable (with its raw bytes), or a
parsed object.  `json.MarshalIndent` over Go maps is deterministic (keys
sorted), so two written objects yield byte-identical files exactly when
the objects are equal. -/

/-- An element of a JSON array as Docker `Status` inspects it (the type
assertion `m.(string)`): a string, or some other JSON value whose
structure the code never looks into. -/
inductive JItem where
  | s : Str → JItem
  | other : Nat → JItem
deriving DecidableEq, Repr

/-- A JSON value stored in the daemon.json object: an array, a string, or
some other JSON value the code never inspects. -/
inductive JVal where
  | arr : List JItem → JVal
  | s : Str → JVal
  | other : Nat → JVal
deriving DecidableEq, Repr

/-- The daemon.json object (`map[string]interface\x7b\x7d`). -/
abbrev JObj := List (Str × JVal)

/-- The daemon.json file as observed through `json.Unmarshal`. -/
inductive DockerFile where
  | absent : DockerFile
  | corrupt : Str → DockerFile
  | valid : JObj → DockerFile
deriving DecidableEq, Repr

/-- The docker filesystem fragment: the daemon.json file and its
`.backup` sibling. -/
structure DockerFS where
  file : DockerFile
  backup : Option Str
deriving DecidableEq, Repr

/-- The managed docker key `registry-mirrors`. -/
def registryMirrorsKey : Str := str "registry-mirrors"

/-- URL normalization of `Enable`: prepend `https://` unless a scheme is
already present. -/
def formatRegistry (r : Str) : Str :=
  if startsWith r (str "http://") = true ∨ startsWith r (str "https://") = true
  then r else str "https://" ++ r

/-- Go map assignment `config[k] = v` on the association-list model. -/
def setKey (o : JObj) (k : Str) (v : JVal) : JObj :=
  match o with
  | [] => [(k, v)]
  | (k1, v1) :: rest => if k1 = k then (k, v) :: rest else (k1, v1) :: setKey rest k v

/-- Go map deletion `delete(config, k)`. -/
def delKey (o : JObj) (k : Str) : JObj :=
  match o with
  | [] => []
  | (k1, v1) :: rest => if k1 = k then delKey rest k else (k1, v1) :: delKey rest k

/-- Go map lookup `config[k]`. -/
def getKey (o : JObj) (k : Str) : Option JVal :=
  match o with
  | [] => none
  | (k1, v1) :: rest => if k1 = k then some v1 else getKey rest k

/-- `DockerMirror.Enable`: on Docker Desktop print-only (no filesystem
change); otherwise read (absent or unparsable becomes the empty object,
an unparsable file is first copied to the `.backup` sibling), set
`registry-mirrors` to the normalized list when it is non-empty, and
write the object back. -/
def dockerEnable (isDesktop : Bool) (regs : List Str) (fs : DockerFS) : DockerFS :=
  if isDesktop then fs
  else
    let base : JObj × Option Str :=
      match fs.file with
      | .absent => ([], fs.backup)
      | .corrupt raw => ([], some raw)
      | .valid o => (o, fs.backup)
    let o1 := if regs.length > 0 then
        setKey base.1 registryMirrorsKey (.arr (regs.map (fun r => .s (formatRegistry r))))
      else base.1
    { file := .valid o1, backup := base.2 }

/-- `DockerMirror.Disable`: print-only on Docker Desktop; no-op on an
absent file; an error on an unparsable file (`json.Unmarshal` failure is
returned, nothing is written and no backup is made); otherwise delete the
key and remove the file when the object became empty. -/
def dockerDisable (isDesktop : Bool) (fs : DockerFS) : Except Unit DockerFS :=
  if isDesktop then .ok fs
  else
    match fs.file with
    | .absent => .ok fs
    | .corrupt _ => .error ()
    | .valid o =>
      let o1 := delKey o registryMirrorsKey
      if o1.length = 0 then .ok { fs with file := .absent }
      else .ok { fs with file := .valid o1 }

/-- Go's `strings.Join L ", "` used by docker Status. -/
def joinComma : List Str → Str
  | [] => []
  | [x] => x
  | x :: y :: r => x ++ str ", " ++ joinComma (y :: r)

/-- `DockerMirror.Status`: manual state on Docker Desktop; default when
absent; an error on an unparsable file; otherwise report the string
entries of `registry-mirrors` with schemes stripped. -/
def dockerStatusResult (isDesktop : Bool) (fs : DockerFS) : Except Unit (Bool × Str) :=
  if isDesktop then .ok (false, str "check Docker Desktop settings")
  else
    match fs.file with
    | .absent => .ok (false, str "default registry")
    | .corrupt _ => .error ()
    | .valid o =>
      match getKey o registryMirrorsKey with
      | none => .ok (false, str "default registry")
      | some (.arr items) =>
        if items.length = 0 then .ok (false, str "default registry")
        else
          let shown := items.filterMap (fun it => match it with
            | .s v => some (trimLeadPat (trimLeadPat v (str "https://")) (str "http://"))
            | .other _ => none)
          if shown.length = 0 then .ok (false, str "default registry")
          else .ok (true, joinComma shown)
      | some (.s _) => .ok (false, str "default registry")
      | some (.other _) => .ok (false, str "default registry")

theorem splitLines_ne_nil (s : Str) : splitLines s ≠ [] := by
  cases s with
  | nil => simp [splitLines]
  | cons c rest =>
    simp only [splitLines]
    split <;> simp

theorem dropWhile_eq_self_of_none (p : Char → Bool) (l : Str)
    (h : ∀ c ∈ l, p c = false) : l.dropWhile p = l := by
  cases l with
  | nil => rfl
  | cons c cs => simp [List.dropWhile_cons, h c (by simp)]

theorem trimRightWs_pat_append (pat r : Str)
    (h : ∀ c ∈ pat, isSpaceChar c = false) :
    trimRightWs (pat ++ r) = pat ++ trimRightWs r := by
  unfold trimRightWs
  rw [List.reverse_append, List.dropWhile_append]
  by_cases he : (List.dropWhile isSpaceChar r.reverse).isEmpty
  · rw [if_pos he]
    rw [dropWhile_eq_self_of_none _ _ (by intro c hc; exact h c (by simpa using hc))]
    rw [List.isEmpty_iff] at he
    simp [he]
  · rw [if_neg he]
    simp

theorem trimLeftWs_pat_append (pat r : Str) (hne : pat ≠ [])
    (h : ∀ c ∈ pat, isSpaceChar c = false) :
    trimLeftWs (pat ++ r) = pat ++ r := by
  cases pat with
  | nil => exact absurd rfl hne
  | cons c cs => simp [trimLeftWs, List.dropWhile_cons, h c (by simp)]

theorem trimSpace_pat_append (pat r : Str) (hne : pat ≠ [])
    (h : ∀ c ∈ pat, isSpaceChar c = false) :
    trimSpace (pat ++ r) = pat ++ trimRightWs r := by
  unfold trimSpace
  rw [trimLeftWs_pat_append pat r hne h, trimRightWs_pat_append pat r h]

theorem startsWith_of_append (pat r : Str) :
    startsWith (pat ++ r) pat = true := by
  unfold startsWith
  exact List.isPrefixOf_iff_prefix.2 (List.prefix_append pat r)

theorem splitLines_append_nl (a b : Str) :
    splitLines (a ++ '\n' :: b) = splitLines a ++ splitLines b := by
  induction a with
  | nil => simp [splitLines]
  | cons c a ih =>
    by_cases hc : c = '\n'
    · subst hc
      simp [splitLines, ih]
    · have hne := splitLines_ne_nil a
      cases h : splitLines a with
      | nil => exact absurd h hne
      | cons l ls =>
        simp [splitLines, hc, ih, h]

theorem splitLines_of_noNl (s : Str) (h : '\n' ∉ s) : splitLines s = [s] := by
  induction s with
  | nil => rfl
  | cons c cs ih =>
    have hc : ¬ c = '\n' := by
      intro e
      exact h (e ▸ List.mem_cons_self c cs)
    have hcs : '\n' ∉ cs := fun m => h (List.mem_cons_of_mem _ m)
    simp [splitLines, hc, ih hcs]

theorem splitLines_joinLines (L : List Str) (h : ∀ l ∈ L, '\n' ∉ l)
    (hne : L ≠ []) : splitLines (joinLines L) = L := by
  induction L with
  | nil => exact absurd rfl hne
  | cons l ls ih =>
    cases ls with
    | nil => simp [joinLines, splitLines_of_noNl l (h l (by simp))]
    | cons l' ls' =>
      have : joinLines (l :: l' :: ls') = l ++ '\n' :: joinLines (l' :: ls') := rfl
      rw [this, splitLines_append_nl, splitLines_of_noNl l (h l (by simp))]
      rw [ih (by intro x hx; exact h x (List.mem_cons_of_mem _ hx)) (by simp)]
      rfl

theorem headI_splitLines_prefix (s : Str) : (splitLines s).headI <+: s := by
  induction s with
  | nil => simp [splitLines]
  | cons c cs ih =>
    by_cases hc : c = '\n'
    · subst hc
      simp [splitLines]
    · simp only [splitLines, hc, if_false, List.headI]
      exact List.cons_prefix_cons.2 ⟨rfl, ih⟩

theorem headI_mem_splitLines (s : Str) : (splitLines s).headI ∈ splitLines s := by
  have hne := splitLines_ne_nil s
  cases hh : splitLines s with
  | nil => exact absurd hh hne
  | cons a as => simp

theorem mem_splitLines_infix {l s : Str} (h : l ∈ splitLines s) : l <:+: s := by
  induction s generalizing l with
  | nil =>
    simp [splitLines] at h
    simp [h]
  | cons c cs ih =>
    by_cases hc : c = '\n'
    · subst hc
      simp [splitLines] at h
      rcases h with h | h
      · simp [h]
      · exact List.infix_cons (ih h)
    · simp [splitLines, hc] at h
      rcases h with h | h
      · subst h
        exact (List.cons_prefix_cons.2 ⟨rfl, headI_splitLines_prefix cs⟩).isInfix
      · exact List.infix_cons (ih (List.mem_of_mem_tail h))

theorem noNl_mem_splitLines {l s : Str} (h : l ∈ splitLines s) : '\n' ∉ l := by
  induction s generalizing l with
  | nil =>
    simp [splitLines] at h
    simp [h]
  | cons c cs ih =>
    by_cases hc : c = '\n'
    · subst hc
      simp [splitLines] at h
      rcases h with h | h
      · simp [h]
      · exact ih h
    · simp [splitLines, hc] at h
      rcases h with h | h
      · subst h
        intro hm
        rcases List.mem_cons.1 hm with e | hm'
        · exact hc e.symm
        · exact ih (headI_mem_splitLines cs) hm'
      · exact ih (List.mem_of_mem_tail h)

theorem containsSub_iff (s pat : Str) : containsSub s pat = true ↔ pat <:+: s := by
  unfold containsSub
  rw [List.any_eq_true]
  constructor
  · rintro ⟨t, ht, hp⟩
    exact List.infix_iff_prefix_suffix.2
      ⟨t, List.isPrefixOf_iff_prefix.1 hp, (List.mem_tails t s).1 ht⟩
  · intro h
    rcases List.infix_iff_prefix_suffix.1 h with ⟨t, hp, hs⟩
    exact ⟨t, (List.mem_tails t s).2 hs, List.isPrefixOf_iff_prefix.2 hp⟩

theorem prefix_splitLines_headI {q s : Str} (hn : '\n' ∉ q) (h : q <+: s) :
    q <+: (splitLines s).headI := by
  induction q generalizing s with
  | nil => simp
  | cons c q' ih =>
    rcases h with ⟨t, ht⟩
    subst ht
    have hc : ¬ c = '\n' := by
      intro e
      exact hn (e ▸ List.mem_cons_self c q')
    simp only [List.cons_append, splitLines, hc, if_false]
    simp only [List.headI]
    exact List.cons_prefix_cons.2
      ⟨rfl, ih (fun m => hn (List.mem_cons_of_mem _ m)) (List.prefix_append q' t)⟩

theorem infix_splitLines_exists {pat s : Str} (hn : '\n' ∉ pat)
    (h : pat <:+: s) : ∃ l ∈ splitLines s, pat <:+: l := by
  induction s with
  | nil =>
    refine ⟨[], by simp [splitLines], ?_⟩
    simpa using h
  | cons c cs ih =>
    rcases List.infix_cons_iff.1 h with hp | hi
    · by_cases hc : c = '\n'
      · subst hc
        cases pat with
        | nil => exact ⟨[], by simp [splitLines], by simp⟩
        | cons p ps =>
          rcases hp with ⟨t, ht⟩
          have hp' : p = '\n' := by
            have := congrArg (fun l => List.headI l) ht
            simpa using this
          exact absurd hp' (by
            intro e
            exact hn (e ▸ List.mem_cons_self p ps))
      · exact ⟨(splitLines (c :: cs)).headI, headI_mem_splitLines _,
          (prefix_splitLines_headI hn hp).isInfix⟩
    · rcases ih hi with ⟨l, hl, hpl⟩
      by_cases hc : c = '\n'
      · subst hc
        exact ⟨l, by simp [splitLines, hl], hpl⟩
      · have hne := splitLines_ne_nil cs
        cases hh : splitLines cs with
        | nil => exact absurd hh hne
        | cons a as =>
          rw [hh] at hl
          rcases List.mem_cons.1 hl with e | hm
          · subst e
            refine ⟨c :: l, ?_, List.infix_cons hpl⟩
            simp [splitLines, hc, hh]
          · refine ⟨l, ?_, hpl⟩
            simp [splitLines, hc, hh]
            exact Or.inr hm

theorem infix_joinLines_of_mem {l : Str} {L : List Str} (h : l ∈ L) :
    l <:+: joinLines L := by
  induction L with
  | nil => simp at h
  | cons a as ih =>
    cases as with
    | nil =>
      simp at h
      simp [joinLines, h]
    | cons a' as' =>
      have hj : joinLines (a :: a' :: as') = a ++ '\n' :: joinLines (a' :: as') := rfl
      rcases List.mem_cons.1 h with e | hm
      · subst e
        rw [hj]
        exact (List.prefix_append l _).isInfix
      · rw [hj]
        have h1 : joinLines (a' :: as') <:+ '\n' :: joinLines (a' :: as') :=
          List.suffix_cons _ _
        have h2 : '\n' :: joinLines (a' :: as') <:+ a ++ '\n' :: joinLines (a' :: as') :=
          List.suffix_append _ _
        exact ((ih hm).trans h1.isInfix).trans h2.isInfix

theorem npmMatch_registryLine (u : Str) : npmMatch (registryLine u) = true := by
  unfold npmMatch registryLine
  rw [trimSpace_pat_append (str "registry=") u (by decide) (by decide)]
  exact startsWith_of_append _ _

theorem npmMatch_nil : npmMatch [] = false := by decide

theorem npmLoop_eq (u : Str) (L : List Str) :
    npmLoop u L = ((L.filter (fun l => npmMatch l || !(trimSpace l).isEmpty)).map
        (fun l => if npmMatch l then registryLine u else l),
      L.any npmMatch) := by
  induction L with
  | nil => rfl
  | cons l ls ih =>
    by_cases hm : npmMatch l
    · simp [npmLoop, hm, ih, List.filter_cons, List.any_cons]
    · by_cases ht : trimSpace l = []
      · simp [npmLoop, hm, ht, ih, List.filter_cons, List.any_cons]
      · simp [npmLoop, hm, ht, ih, List.filter_cons, List.any_cons]

theorem npmEnableLines_eq_spec (u : Str) (L : List Str) :
    npmEnableLines u L = npmEnableSpec u L := by
  unfold npmEnableLines npmEnableSpec
  rw [npmLoop_eq]

theorem npmStatusLoop_eq_spec (L : List Str) :
    npmStatusLoop L = npmStatusSpec L := by
  induction L with
  | nil => rfl
  | cons l ls ih =>
    by_cases hm : npmMatch l
    · simp only [npmStatusLoop, npmStatusSpec, List.find?_cons]
      have hm' : startsWith (trimSpace l) registryKey = true := hm
      simp [hm', hm]
    · have hm' : startsWith (trimSpace l) registryKey = false := by
        simpa [npmMatch] using hm
      simp only [npmStatusLoop, npmStatusSpec, List.find?_cons]
      simp [hm', hm, ih, npmStatusSpec]

theorem noNl_str_registryLine {u : Str} (hu : '\n' ∉ u) : '\n' ∉ registryLine u := by
  unfold registryLine
  intro h
  rcases List.mem_append.1 h with h | h
  · revert h
    decide
  · exact hu h

theorem registryLine_mem_npmEnableLines (u : Str) (L : List Str) :
    registryLine u ∈ npmEnableLines u L := by
  rw [npmEnableLines_eq_spec]
  unfold npmEnableSpec
  by_cases h : L.any npmMatch
  · rcases List.any_eq_true.1 h with ⟨x, hx, hm⟩
    simp only [h, if_true]
    exact List.mem_map.2 ⟨x, List.mem_filter.2 ⟨hx, by simp [hm]⟩, by simp [hm]⟩
  · simp [h]

theorem mem_npmEnableLines {u : Str} {L : List Str} {l : Str}
    (h : l ∈ npmEnableLines u L) :
    l = registryLine u ∨ (l ∈ L ∧ npmMatch l = false ∧ ¬ trimSpace l = []) := by
  rw [npmEnableLines_eq_spec] at h
  unfold npmEnableSpec at h
  have hrep : ∀ x ∈ (L.filter (fun l => npmMatch l || !(trimSpace l).isEmpty)).map
      (fun l => if npmMatch l then registryLine u else l),
      x = registryLine u ∨ (x ∈ L ∧ npmMatch x = false ∧ ¬ trimSpace x = []) := by
    intro x hx
    rcases List.mem_map.1 hx with ⟨y, hy, hxy⟩
    rcases List.mem_filter.1 hy with ⟨hyL, hyP⟩
    by_cases hm : npmMatch y
    · left
      rw [← hxy]
      simp [hm]
    · right
      have hx' : x = y := by rw [← hxy]; simp [hm]
      subst hx'
      refine ⟨hyL, by simpa using hm, ?_⟩
      simp only [hm, Bool.false_or] at hyP
      intro he
      rw [he] at hyP
      simp at hyP
  by_cases hany : L.any npmMatch
  · simp only [hany, if_true] at h
    exact hrep l h
  · simp only [hany, if_false] at h
    rcases List.mem_append.1 h with h | h
    · exact hrep l h
    · left
      simpa using h

theorem npmEnableLines_stable (u : Str) (L : List Str) :
    npmEnableLines u (npmEnableLines u L ++ [[]]) = npmEnableLines u L := by
  have hany : (npmEnableLines u L ++ [[]]).any npmMatch = true := by
    rw [List.any_append]
    refine Or.inl ?_ |> Bool.or_eq_true_iff.2
    exact List.any_eq_true.2
      ⟨registryLine u, registryLine_mem_npmEnableLines u L, npmMatch_registryLine u⟩
  conv_lhs => rw [npmEnableLines_eq_spec]
  unfold npmEnableSpec
  simp only [hany, if_true]
  rw [List.filter_append]
  have hnil : List.filter (fun l => npmMatch l || !(trimSpace l).isEmpty) [([] : Str)]
      = [] := by decide
  rw [hnil, List.append_nil]
  have hfix : List.filter (fun l => npmMatch l || !(trimSpace l).isEmpty)
      (npmEnableLines u L) = npmEnableLines u L := by
    rw [List.filter_eq_self]
    intro a ha
    rcases mem_npmEnableLines ha with h | ⟨_, hm, ht⟩
    · subst h
      simp [npmMatch_registryLine]
    · simp only [hm, Bool.false_or, Bool.not_eq_true']
      rw [List.isEmpty_eq_false_iff_exists_mem]
      cases hts : trimSpace a with
      | nil => exact absurd hts ht
      | cons c cs => exact ⟨c, by simp⟩
  rw [hfix]
  have : ∀ a ∈ npmEnableLines u L,
      (if npmMatch a then registryLine u else a) = a := by
    intro a ha
    rcases mem_npmEnableLines ha with h | ⟨_, hm, _⟩
    · simp [h]
    · simp [hm]
  rw [List.map_congr_left this]
  simp

theorem npmEnableLines_ne_nil (u : Str) (L : List Str) :
    npmEnableLines u L ≠ [] :=
  List.ne_nil_of_mem (registryLine_mem_npmEnableLines u L)

theorem noNl_mem_npmEnableLines {u : Str} (hu : '\n' ∉ u) {L : List Str}
    (hL : ∀ l ∈ L, '\n' ∉ l) {l : Str} (h : l ∈ npmEnableLines u L) :
    '\n' ∉ l := by
  rcases mem_npmEnableLines h with h | ⟨hmem, _, _⟩
  · subst h
    exact noNl_str_registryLine hu
  · exact hL l hmem

theorem npmEnable_idem (u : Str) (hu : '\n' ∉ u) (f : Option Str) :
    npmEnable u (some (npmEnable u f)) = npmEnable u f := by
  unfold npmEnable
  have hft : fileText (some (joinLines (npmEnableLines u (splitLines (fileText f)))
      ++ ['\n'])) = joinLines (npmEnableLines u (splitLines (fileText f))) ++ ['\n'] := rfl
  rw [hft]
  have hsplit : splitLines (joinLines (npmEnableLines u (splitLines (fileText f)))
      ++ ['\n']) = npmEnableLines u (splitLines (fileText f)) ++ [[]] := by
    have he : joinLines (npmEnableLines u (splitLines (fileText f))) ++ ['\n']
        = joinLines (npmEnableLines u (splitLines (fileText f))) ++ '\n' :: [] := rfl
    rw [he, splitLines_append_nl,
      splitLines_joinLines _
        (fun l hl => noNl_mem_npmEnableLines hu
          (fun x hx => noNl_mem_splitLines hx) hl)
        (npmEnableLines_ne_nil u _)]
    rfl
  rw [hsplit, npmEnableLines_stable]

theorem indexLine_decomp (u : Str) :
    indexLine u = str "index-url" ++ (str " = " ++ u) := rfl

theorem trimSpace_indexLine (u : Str) :
    trimSpace (indexLine u) = str "index-url" ++ trimRightWs (str " = " ++ u) := by
  rw [indexLine_decomp, trimSpace_pat_append (str "index-url") _ (by decide) (by decide)]

theorem startsWith_trimSpace_indexLine (u : Str) :
    startsWith (trimSpace (indexLine u)) indexKey = true := by
  rw [trimSpace_indexLine]
  exact startsWith_of_append _ _

theorem trimSpace_indexLine_ne_global (u : Str) :
    ¬ trimSpace (indexLine u) = globalHeader := by
  rw [trimSpace_indexLine]
  intro h
  have h2 : ('i' :: (str "ndex-url" ++ trimRightWs (str " = " ++ u)))
      = '[' :: str "global]" := h
  injection h2 with h3 h4
  exact absurd h3 (by decide)

theorem not_startsWith_indexLine_lbrack (u : Str) :
    startsWith (trimSpace (indexLine u)) lbrack = false := by
  rw [trimSpace_indexLine]
  show startsWith ('i' :: (str "ndex-url" ++ trimRightWs (str " = " ++ u))) lbrack = false
  simp [startsWith, lbrack, str, List.isPrefixOf]

theorem trimSpace_indexLine_ne_nil (u : Str) :
    ¬ trimSpace (indexLine u) = [] := by
  rw [trimSpace_indexLine]
  show ¬ ('i' :: (str "ndex-url" ++ trimRightWs (str " = " ++ u))) = []
  simp

theorem noNl_indexLine {u : Str} (hu : '\n' ∉ u) : '\n' ∉ indexLine u := by
  rw [indexLine_decomp]
  intro h
  rcases List.mem_append.1 h with h | h
  · revert h
    decide
  · rcases List.mem_append.1 h with h | h
    · revert h
      decide
    · exact hu h

theorem pipStep_global (u : Str) (st : PipSt) (l : Str)
    (h1 : trimSpace l = globalHeader) :
    pipStep u st l = ([l], { st with hasGlobal := true, inGlobal := true }) := by
  simp [pipStep, h1]

theorem pipStep_header_insert (u : Str) (st : PipSt) (l : Str)
    (h1 : ¬ trimSpace l = globalHeader) (h2 : startsWith (trimSpace l) lbrack = true)
    (hG : st.inGlobal = true) (hI : st.hasIndexURL = false) :
    pipStep u st l = ([indexLine u, l],
      { st with hasIndexURL := true, inGlobal := false }) := by
  simp [pipStep, h1, h2, hG, hI]

theorem pipStep_header_keep (u : Str) (st : PipSt) (l : Str)
    (h1 : ¬ trimSpace l = globalHeader) (h2 : startsWith (trimSpace l) lbrack = true)
    (h3 : ¬ (st.inGlobal = true ∧ st.hasIndexURL = false)) :
    pipStep u st l = ([l], { st with inGlobal := false }) := by
  simp only [pipStep, if_neg h1, if_pos (And.intro h2 h1), if_neg h3]

theorem pipStep_replace (u : Str) (st : PipSt) (l : Str)
    (h1 : ¬ trimSpace l = globalHeader) (h2 : ¬ startsWith (trimSpace l) lbrack = true)
    (hG : st.inGlobal = true) (hK : startsWith (trimSpace l) indexKey = true) :
    pipStep u st l = ([indexLine u], { st with hasIndexURL := true }) := by
  have hn2 : ¬ (startsWith (trimSpace l) lbrack = true ∧ ¬ trimSpace l = globalHeader) :=
    fun hc => h2 hc.1
  simp only [pipStep, if_neg h1, if_neg hn2, if_pos (And.intro hG hK)]

theorem pipStep_keep (u : Str) (st : PipSt) (l : Str)
    (h1 : ¬ trimSpace l = globalHeader) (h2 : ¬ startsWith (trimSpace l) lbrack = true)
    (h4 : ¬ (st.inGlobal = true ∧ startsWith (trimSpace l) indexKey = true))
    (h5 : ¬ trimSpace l = []) :
    pipStep u st l = ([l], st) := by
  have hn2 : ¬ (startsWith (trimSpace l) lbrack = true ∧ ¬ trimSpace l = globalHeader) :=
    fun hc => h2 hc.1
  simp only [pipStep, if_neg h1, if_neg hn2, if_neg h4, if_pos h5]

theorem pipStep_blank (u : Str) (st : PipSt) (l : Str)
    (h5 : trimSpace l = []) :
    pipStep u st l = ([], st) := by
  have h1 : ¬ trimSpace l = globalHeader := by rw [h5]; decide
  have h2 : ¬ startsWith (trimSpace l) lbrack = true := by rw [h5]; decide
  have hn2 : ¬ (startsWith (trimSpace l) lbrack = true ∧ ¬ trimSpace l = globalHeader) :=
    fun hc => h2 hc.1
  have h4 : ¬ (st.inGlobal = true ∧ startsWith (trimSpace l) indexKey = true) := by
    rw [h5]
    intro hc
    exact absurd hc.2 (by decide)
  have h5' : ¬ ¬ trimSpace l = [] := fun hc => hc h5
  simp only [pipStep, if_neg h1, if_neg hn2, if_neg h4, if_neg h5']

theorem pipLoop_cons (u : Str) (l : Str) (ls : List Str) (st : PipSt) :
    pipLoop u (l :: ls) st =
      ((pipStep u st l).1 ++ (pipLoop u ls (pipStep u st l).2).1,
       (pipLoop u ls (pipStep u st l).2).2) := rfl

theorem pipLoop_nil (u : Str) (st : PipSt) : pipLoop u [] st = ([], st) := rfl

theorem pipStep_stable (u : Str) (st : PipSt) (l : Str) :
    pipLoop u (pipStep u st l).1 st = pipStep u st l := by
  by_cases h1 : trimSpace l = globalHeader
  · rw [pipStep_global u st l h1]
    rw [pipLoop_cons, pipStep_global u st l h1, pipLoop_nil]
    simp
  · by_cases h2 : startsWith (trimSpace l) lbrack = true
    · by_cases hG : st.inGlobal = true
      · by_cases hI : st.hasIndexURL = false
        · rw [pipStep_header_insert u st l h1 h2 hG hI]
          rw [pipLoop_cons,
            pipStep_replace u st (indexLine u) (trimSpace_indexLine_ne_global u)
              (by simp [not_startsWith_indexLine_lbrack]) hG
              (startsWith_trimSpace_indexLine u)]
          rw [pipLoop_cons,
            pipStep_header_keep u _ l h1 h2 (by simp), pipLoop_nil]
          simp
        · rw [pipStep_header_keep u st l h1 h2 (fun hc => hI hc.2)]
          rw [pipLoop_cons, pipStep_header_keep u st l h1 h2 (fun hc => hI hc.2),
            pipLoop_nil]
          simp
      · rw [pipStep_header_keep u st l h1 h2 (fun hc => hG hc.1)]
        rw [pipLoop_cons, pipStep_header_keep u st l h1 h2 (fun hc => hG hc.1),
          pipLoop_nil]
        simp
    · by_cases h4 : st.inGlobal = true ∧ startsWith (trimSpace l) indexKey = true
      · rw [pipStep_replace u st l h1 h2 h4.1 h4.2]
        rw [pipLoop_cons,
          pipStep_replace u st (indexLine u) (trimSpace_indexLine_ne_global u)
            (by simp [not_startsWith_indexLine_lbrack]) h4.1
            (startsWith_trimSpace_indexLine u), pipLoop_nil]
        simp
      · by_cases h5 : trimSpace l = []
        · rw [pipStep_blank u st l h5, pipLoop_nil]
        · rw [pipStep_keep u st l h1 h2 h4 h5]
          rw [pipLoop_cons, pipStep_keep u st l h1 h2 h4 h5, pipLoop_nil]
          simp

theorem pipLoop_append (u : Str) (A B : List Str) (st : PipSt) :
    pipLoop u (A ++ B) st =
      ((pipLoop u A st).1 ++ (pipLoop u B (pipLoop u A st).2).1,
       (pipLoop u B (pipLoop u A st).2).2) := by
  induction A generalizing st with
  | nil => simp [pipLoop]
  | cons l ls ih => simp [pipLoop, ih, List.append_assoc]

theorem pipLoop_stable (u : Str) (L : List Str) (st : PipSt) :
    pipLoop u (pipLoop u L st).1 st = pipLoop u L st := by
  induction L generalizing st with
  | nil => simp [pipLoop]
  | cons l ls ih =>
    have hstep := pipStep_stable u st l
    have hrec := ih (pipStep u st l).2
    show pipLoop u ((pipStep u st l).1 ++ (pipLoop u ls (pipStep u st l).2).1) st
        = ((pipStep u st l).1 ++ (pipLoop u ls (pipStep u st l).2).1,
           (pipLoop u ls (pipStep u st l).2).2)
    rw [pipLoop_append, hstep, hrec]

theorem pipStep_inv (u : Str) (st : PipSt) (l : Str) (h : pipInv st) :
    pipInv (pipStep u st l).2 := by
  rcases h with ⟨hA, hB⟩
  by_cases h1 : trimSpace l = globalHeader
  · rw [pipStep_global u st l h1]
    exact ⟨fun _ => rfl, fun _ => rfl⟩
  · by_cases h2 : startsWith (trimSpace l) lbrack = true
    · by_cases hG : st.inGlobal = true
      · by_cases hI : st.hasIndexURL = false
        · rw [pipStep_header_insert u st l h1 h2 hG hI]
          refine ⟨fun hc => by simp at hc, fun _ => ?_⟩
          rw [← hA hI]
          exact hG
        · rw [pipStep_header_keep u st l h1 h2 (fun hc => hI hc.2)]
          refine ⟨fun hc => ?_, fun hc => hB hc⟩
          have hc' : st.hasIndexURL = false := hc
          exact absurd hc' hI
      · rw [pipStep_header_keep u st l h1 h2 (fun hc => hG hc.1)]
        refine ⟨fun hc => ?_, fun hc => hB hc⟩
        have := hA hc
        rw [← this]
        cases hv : st.inGlobal
        · rfl
        · exact absurd hv hG
    · by_cases h4 : st.inGlobal = true ∧ startsWith (trimSpace l) indexKey = true
      · rw [pipStep_replace u st l h1 h2 h4.1 h4.2]
        refine ⟨fun hc => by simp at hc, fun _ => ?_⟩
        cases hv : st.hasIndexURL
        · rw [← hA hv]
          exact h4.1
        · exact hB hv
      · by_cases h5 : trimSpace l = []
        · rw [pipStep_blank u st l h5]
          exact ⟨hA, hB⟩
        · rw [pipStep_keep u st l h1 h2 h4 h5]
          exact ⟨hA, hB⟩

theorem pipLoop_inv (u : Str) (L : List Str) (st : PipSt) (h : pipInv st) :
    pipInv (pipLoop u L st).2 := by
  induction L generalizing st with
  | nil => simpa [pipLoop]
  | cons l ls ih =>
    show pipInv (pipLoop u ls (pipStep u st l).2).2
    exact ih _ (pipStep_inv u st l h)

theorem trimSpace_globalHeader : trimSpace globalHeader = globalHeader := by decide

theorem mem_pipStep {u : Str} {st : PipSt} {l x : Str}
    (h : x ∈ (pipStep u st l).1) : x = l ∨ x = indexLine u := by
  by_cases h1 : trimSpace l = globalHeader
  · rw [pipStep_global u st l h1] at h
    simp at h
    exact Or.inl h
  · by_cases h2 : startsWith (trimSpace l) lbrack = true
    · by_cases h3 : st.inGlobal = true ∧ st.hasIndexURL = false
      · rw [pipStep_header_insert u st l h1 h2 h3.1 h3.2] at h
        simp at h
        rcases h with h | h
        · exact Or.inr h
        · exact Or.inl h
      · rw [pipStep_header_keep u st l h1 h2 h3] at h
        simp at h
        exact Or.inl h
    · by_cases h4 : st.inGlobal = true ∧ startsWith (trimSpace l) indexKey = true
      · rw [pipStep_replace u st l h1 h2 h4.1 h4.2] at h
        simp at h
        exact Or.inr h
      · by_cases h5 : trimSpace l = []
        · rw [pipStep_blank u st l h5] at h
          simp at h
        · rw [pipStep_keep u st l h1 h2 h4 h5] at h
          simp at h
          exact Or.inl h

theorem mem_pipLoop {u : Str} {L : List Str} {st : PipSt} {x : Str}
    (h : x ∈ (pipLoop u L st).1) : x ∈ L ∨ x = indexLine u := by
  induction L generalizing st with
  | nil => simp [pipLoop] at h
  | cons l ls ih =>
    rw [pipLoop_cons] at h
    rcases List.mem_append.1 h with h | h
    · rcases mem_pipStep h with h | h
      · exact Or.inl (h ▸ List.mem_cons_self l ls)
      · exact Or.inr h
    · rcases ih h with h | h
      · exact Or.inl (List.mem_cons_of_mem _ h)
      · exact Or.inr h

theorem pipStep_hasGlobal_of_ne (u : Str) (st : PipSt) (l : Str)
    (h1 : ¬ trimSpace l = globalHeader) :
    (pipStep u st l).2.hasGlobal = st.hasGlobal := by
  by_cases h2 : startsWith (trimSpace l) lbrack = true
  · by_cases h3 : st.inGlobal = true ∧ st.hasIndexURL = false
    · rw [pipStep_header_insert u st l h1 h2 h3.1 h3.2]
    · rw [pipStep_header_keep u st l h1 h2 h3]
  · by_cases h4 : st.inGlobal = true ∧ startsWith (trimSpace l) indexKey = true
    · rw [pipStep_replace u st l h1 h2 h4.1 h4.2]
    · by_cases h5 : trimSpace l = []
      · rw [pipStep_blank u st l h5]
      · rw [pipStep_keep u st l h1 h2 h4 h5]

theorem pipLoop_acc_ne_nil_of_hasGlobal {u : Str} {L : List Str} {st : PipSt}
    (h0 : st.hasGlobal = false) (h1 : (pipLoop u L st).2.hasGlobal = true) :
    (pipLoop u L st).1 ≠ [] := by
  induction L generalizing st with
  | nil =>
    rw [pipLoop_nil] at h1
    rw [h0] at h1
    exact absurd h1 (by decide)
  | cons l ls ih =>
    rw [pipLoop_cons]
    by_cases hg : trimSpace l = globalHeader
    · rw [pipStep_global u st l hg]
      simp
    · rw [pipLoop_cons] at h1
      have hpres := pipStep_hasGlobal_of_ne u st l hg
      have := @ih (pipStep u st l).2 (by rw [hpres]; exact h0) h1
      intro hc
      exact this (List.append_eq_nil.1 hc).2

theorem pipLoop_tail (u : Str) (st : PipSt) (h : pipInv st) :
    (pipLoop u (pipTail u st ++ [[]]) st).1 = pipTail u st ∧
    pipTail u (pipLoop u (pipTail u st ++ [[]]) st).2 = [] := by
  rcases h with ⟨hA, hB⟩
  by_cases hG : st.hasGlobal = false
  · have hI : st.hasIndexURL = false := by
      cases hv : st.hasIndexURL
      · rfl
      · rw [hB hv] at hG
        exact absurd hG (by decide)
    have htail : pipTail u st = [globalHeader, indexLine u] := by
      simp [pipTail, hG]
    rw [htail]
    rw [show ([globalHeader, indexLine u] ++ [[]])
        = globalHeader :: indexLine u :: [([] : Str)] from rfl]
    rw [pipLoop_cons, pipStep_global u st globalHeader trimSpace_globalHeader]
    rw [pipLoop_cons,
      pipStep_replace u _ (indexLine u) (trimSpace_indexLine_ne_global u)
        (by simp [not_startsWith_indexLine_lbrack]) rfl
        (startsWith_trimSpace_indexLine u)]
    rw [pipLoop_cons, pipStep_blank u _ [] (by decide), pipLoop_nil]
    constructor
    · simp
    · simp [pipTail]
  · by_cases hI : st.hasIndexURL = false
    · have hG' : st.hasGlobal = true := by
        cases hv : st.hasGlobal
        · exact absurd hv hG
        · rfl
      have hin : st.inGlobal = true := by
        rw [hA hI]
        exact hG'
      have htail : pipTail u st = [indexLine u] := by
        simp [pipTail, hG', hI]
      rw [htail]
      rw [show ([indexLine u] ++ [[]]) = indexLine u :: [([] : Str)] from rfl]
      rw [pipLoop_cons,
        pipStep_replace u st (indexLine u) (trimSpace_indexLine_ne_global u)
          (by simp [not_startsWith_indexLine_lbrack]) hin
          (startsWith_trimSpace_indexLine u)]
      rw [pipLoop_cons, pipStep_blank u _ [] (by decide), pipLoop_nil]
      constructor
      · simp
      · simp [pipTail, hG']
    · have hG' : st.hasGlobal = true := by
        cases hv : st.hasGlobal
        · exact absurd hv hG
        · rfl
      have hI' : st.hasIndexURL = true := by
        cases hv : st.hasIndexURL
        · exact absurd hv hI
        · rfl
      have htail : pipTail u st = [] := by
        simp [pipTail, hG', hI']
      rw [htail]
      rw [show (([] : List Str) ++ [[]]) = [([] : Str)] from rfl]
      rw [pipLoop_cons, pipStep_blank u _ [] (by decide), pipLoop_nil]
      constructor
      · simp
      · simp [pipTail, hG', hI']

theorem pipInv_init : pipInv pipInit :=
  ⟨fun _ => rfl, fun h => by simp [pipInit] at h⟩

theorem pipEnableLines_stable (u : Str) (L : List Str) :
    pipEnableLines u (pipEnableLines u L ++ [[]]) = pipEnableLines u L := by
  show (pipLoop u (((pipLoop u L pipInit).1 ++ pipTail u (pipLoop u L pipInit).2)
      ++ [[]]) pipInit).1
    ++ pipTail u (pipLoop u (((pipLoop u L pipInit).1
      ++ pipTail u (pipLoop u L pipInit).2) ++ [[]]) pipInit).2
    = (pipLoop u L pipInit).1 ++ pipTail u (pipLoop u L pipInit).2
  have hR := pipLoop_stable u L pipInit
  have hinv := pipLoop_inv u L pipInit pipInv_init
  rcases pipLoop_tail u (pipLoop u L pipInit).2 hinv with ⟨ht1, ht2⟩
  have hassoc : ((pipLoop u L pipInit).1 ++ pipTail u (pipLoop u L pipInit).2) ++ [[]]
      = (pipLoop u L pipInit).1 ++ (pipTail u (pipLoop u L pipInit).2 ++ [[]]) := by
    rw [List.append_assoc]
  rw [hassoc, pipLoop_append, hR, ht1, ht2, List.append_nil]

theorem pipEnableLines_ne_nil (u : Str) (L : List Str) :
    pipEnableLines u L ≠ [] := by
  show (pipLoop u L pipInit).1 ++ pipTail u (pipLoop u L pipInit).2 ≠ []
  have hinv := pipLoop_inv u L pipInit pipInv_init
  by_cases hG : (pipLoop u L pipInit).2.hasGlobal = false
  · have : pipTail u (pipLoop u L pipInit).2 = [globalHeader, indexLine u] := by
      simp [pipTail, hG]
    rw [this]
    simp
  · by_cases hI : (pipLoop u L pipInit).2.hasIndexURL = false
    · have hG' : (pipLoop u L pipInit).2.hasGlobal = true := by
        cases hv : (pipLoop u L pipInit).2.hasGlobal
        · exact absurd hv hG
        · rfl
      have : pipTail u (pipLoop u L pipInit).2 = [indexLine u] := by
        simp [pipTail, hG', hI]
      rw [this]
      simp
    · have hG' : (pipLoop u L pipInit).2.hasGlobal = true := by
        cases hv : (pipLoop u L pipInit).2.hasGlobal
        · exact absurd hv hG
        · rfl
      have hne := @pipLoop_acc_ne_nil_of_hasGlobal u L pipInit rfl hG'
      intro hc
      exact hne (List.append_eq_nil.1 hc).1

theorem noNl_globalHeader : '\n' ∉ globalHeader := by decide

theorem noNl_mem_pipEnableLines {u : Str} (hu : '\n' ∉ u) {L : List Str}
    (hL : ∀ l ∈ L, '\n' ∉ l) {l : Str} (h : l ∈ pipEnableLines u L) :
    '\n' ∉ l := by
  unfold pipEnableLines at h
  rcases List.mem_append.1 h with h | h
  · rcases mem_pipLoop h with h | h
    · exact hL l h
    · exact h ▸ noNl_indexLine hu
  · unfold pipTail at h
    by_cases hG : (pipLoop u L pipInit).2.hasGlobal = false
    · rw [if_pos hG] at h
      rcases List.mem_cons.1 h with h | h
      · exact h ▸ noNl_globalHeader
      · rcases List.mem_cons.1 h with h | h
        · exact h ▸ noNl_indexLine hu
        · simp at h
    · rw [if_neg hG] at h
      by_cases hI : (pipLoop u L pipInit).2.hasIndexURL = false
      · rw [if_pos hI] at h
        rcases List.mem_cons.1 h with h | h
        · exact h ▸ noNl_indexLine hu
        · simp at h
      · rw [if_neg hI] at h
        simp at h

theorem pipEnable_idem (u : Str) (hu : '\n' ∉ u) (f : Option Str) :
    pipEnable u (some (pipEnable u f)) = pipEnable u f := by
  unfold pipEnable
  have hft : fileText (some (joinLines (pipEnableLines u (splitLines (fileText f)))
      ++ ['\n'])) = joinLines (pipEnableLines u (splitLines (fileText f))) ++ ['\n'] := rfl
  rw [hft]
  have hsplit : splitLines (joinLines (pipEnableLines u (splitLines (fileText f)))
      ++ ['\n']) = pipEnableLines u (splitLines (fileText f)) ++ [[]] := by
    have he : joinLines (pipEnableLines u (splitLines (fileText f))) ++ ['\n']
        = joinLines (pipEnableLines u (splitLines (fileText f))) ++ '\n' :: [] := rfl
    rw [he, splitLines_append_nl,
      splitLines_joinLines _
        (fun l hl => noNl_mem_pipEnableLines hu
          (fun x hx => noNl_mem_splitLines hx) hl)
        (pipEnableLines_ne_nil u _)]
    rfl
  rw [hsplit, pipEnableLines_stable]

theorem startsWith_trans_pat {t p q : Str} (hqp : q <+: p)
    (h : startsWith t p = true) : startsWith t q = true :=
  List.isPrefixOf_iff_prefix.2 (hqp.trans (List.isPrefixOf_iff_prefix.1 h))

theorem startsWith_sourceDot_lbrack {t : Str}
    (h : startsWith t sourceDot = true) : startsWith t lbrack = true :=
  startsWith_trans_pat (by decide) h

theorem startsWith_cratesIO_lbrack {t : Str} (h : t = cratesIOHeader) :
    startsWith t lbrack = true := by
  subst h
  decide

theorem cargoStep_crates (noRW accNil : Bool) (st : CargoSt) (l : Str)
    (h1 : trimSpace l = cratesIOHeader) :
    cargoStep noRW accNil st l = ([l], ⟨true, true, true⟩) := by
  simp [cargoStep, h1]

theorem cargoStep_otherSource (noRW accNil : Bool) (st : CargoSt) (l : Str)
    (h1 : ¬ trimSpace l = cratesIOHeader)
    (h2 : startsWith (trimSpace l) sourceDot = true) :
    cargoStep noRW accNil st l = ([l], { st with inCrates := false }) := by
  simp only [cargoStep, if_neg h1, if_pos (And.intro h2 h1)]

theorem cargoStep_header_insert (accNil : Bool) (st : CargoSt) (l : Str)
    (h2 : ¬ startsWith (trimSpace l) sourceDot = true)
    (h3 : startsWith (trimSpace l) lbrack = true)
    (hC : st.inCrates = true) :
    cargoStep true accNil st l = ([rwLine, l], { st with inCrates := false }) := by
  have h1 : ¬ trimSpace l = cratesIOHeader := by
    intro hc
    rw [hc] at h2
    exact h2 (by decide)
  have hn2 : ¬ (startsWith (trimSpace l) sourceDot = true ∧ ¬ trimSpace l = cratesIOHeader) :=
    fun hc => h2 hc.1
  simp only [cargoStep, if_neg h1, if_neg hn2, if_pos (And.intro h3 h2)]
  simp [hC]

theorem cargoStep_header_keep (noRW accNil : Bool) (st : CargoSt) (l : Str)
    (h2 : ¬ startsWith (trimSpace l) sourceDot = true)
    (h3 : startsWith (trimSpace l) lbrack = true)
    (hC : ¬ (st.inCrates = true ∧ noRW = true)) :
    cargoStep noRW accNil st l = ([l], { st with inCrates := false }) := by
  have h1 : ¬ trimSpace l = cratesIOHeader := by
    intro hc
    rw [hc] at h2
    exact h2 (by decide)
  have hn2 : ¬ (startsWith (trimSpace l) sourceDot = true ∧ ¬ trimSpace l = cratesIOHeader) :=
    fun hc => h2 hc.1
  simp only [cargoStep, if_neg h1, if_neg hn2, if_pos (And.intro h3 h2), if_neg hC]

theorem cargoStep_rw (noRW accNil : Bool) (st : CargoSt) (l : Str)
    (h3 : startsWith (trimSpace l) lbrack = false)
    (h4 : st.inCrates = true ∧ startsWith (trimSpace l) rwKey = true) :
    cargoStep noRW accNil st l = ([rwLine], st) := by
  have h2 : ¬ startsWith (trimSpace l) sourceDot = true := by
    intro hc
    rw [startsWith_sourceDot_lbrack hc] at h3
    exact absurd h3 (by decide)
  have h1 : ¬ trimSpace l = cratesIOHeader := by
    intro hc
    rw [startsWith_cratesIO_lbrack hc] at h3
    exact absurd h3 (by decide)
  have hn2 : ¬ (startsWith (trimSpace l) sourceDot = true ∧ ¬ trimSpace l = cratesIOHeader) :=
    fun hc => h2 hc.1
  have hn3 : ¬ (startsWith (trimSpace l) lbrack = true ∧
      ¬ startsWith (trimSpace l) sourceDot = true) := by
    intro hc
    rw [h3] at hc
    exact absurd hc.1 (by decide)
  simp only [cargoStep, if_neg h1, if_neg hn2, if_neg hn3, if_pos h4]

theorem cargoStep_keep (noRW accNil : Bool) (st : CargoSt) (l : Str)
    (h3 : startsWith (trimSpace l) lbrack = false)
    (h4 : ¬ (st.inCrates = true ∧ startsWith (trimSpace l) rwKey = true))
    (h5 : ¬ trimSpace l = [] ∨ accNil = true) :
    cargoStep noRW accNil st l = ([l], st) := by
  have h2 : ¬ startsWith (trimSpace l) sourceDot = true := by
    intro hc
    rw [startsWith_sourceDot_lbrack hc] at h3
    exact absurd h3 (by decide)
  have h1 : ¬ trimSpace l = cratesIOHeader := by
    intro hc
    rw [startsWith_cratesIO_lbrack hc] at h3
    exact absurd h3 (by decide)
  have hn2 : ¬ (startsWith (trimSpace l) sourceDot = true ∧ ¬ trimSpace l = cratesIOHeader) :=
    fun hc => h2 hc.1
  have hn3 : ¬ (startsWith (trimSpace l) lbrack = true ∧
      ¬ startsWith (trimSpace l) sourceDot = true) := by
    intro hc
    rw [h3] at hc
    exact absurd hc.1 (by decide)
  simp only [cargoStep, if_neg h1, if_neg hn2, if_neg hn3, if_neg h4, if_pos h5]

theorem cargoStep_blank (noRW accNil : Bool) (st : CargoSt) (l : Str)
    (ht : trimSpace l = []) (hacc : accNil = false) :
    cargoStep noRW accNil st l = ([], st) := by
  subst hacc
  have h3 : startsWith (trimSpace l) lbrack = false := by rw [ht]; decide
  have h4 : ¬ (st.inCrates = true ∧ startsWith (trimSpace l) rwKey = true) := by
    rw [ht]
    intro hc
    exact absurd hc.2 (by decide)
  have h2 : ¬ startsWith (trimSpace l) sourceDot = true := by rw [ht]; decide
  have h1 : ¬ trimSpace l = cratesIOHeader := by rw [ht]; decide
  have hn2 : ¬ (startsWith (trimSpace l) sourceDot = true ∧ ¬ trimSpace l = cratesIOHeader) :=
    fun hc => h2 hc.1
  have hn3 : ¬ (startsWith (trimSpace l) lbrack = true ∧
      ¬ startsWith (trimSpace l) sourceDot = true) := by
    intro hc
    rw [h3] at hc
    exact absurd hc.1 (by decide)
  have h5 : ¬ (¬ trimSpace l = [] ∨ false = true) := by
    rw [ht]
    intro hc
    rcases hc with hc | hc
    · exact hc rfl
    · exact absurd hc (by decide)
  simp only [cargoStep, if_neg h1, if_neg hn2, if_neg hn3, if_neg h4, if_neg h5]

theorem cargoLoop_cons (noRW : Bool) (l : Str) (ls acc : List Str) (st : CargoSt) :
    cargoLoop noRW (l :: ls) acc st =
      cargoLoop noRW ls (acc ++ (cargoStep noRW acc.isEmpty st l).1)
        (cargoStep noRW acc.isEmpty st l).2 := rfl

theorem cargoLoop_nil (noRW : Bool) (acc : List Str) (st : CargoSt) :
    cargoLoop noRW [] acc st = (acc, st) := rfl

theorem cargoLoop_cons_eq (noRW : Bool) (l : Str) (ls acc out : List Str)
    (st st1 : CargoSt) (h : cargoStep noRW acc.isEmpty st l = (out, st1)) :
    cargoLoop noRW (l :: ls) acc st = cargoLoop noRW ls (acc ++ out) st1 := by
  rw [cargoLoop_cons, h]

theorem cargoStep_hasCrates (noRW accNil : Bool) (st : CargoSt) (l : Str) :
    (cargoStep noRW accNil st l).2.hasCrates
      = (st.hasCrates || (trimSpace l == cratesIOHeader)) := by
  by_cases h1 : trimSpace l = cratesIOHeader
  · rw [cargoStep_crates noRW accNil st l h1]
    simp [h1]
  · have hbeq : (trimSpace l == cratesIOHeader) = false := by
      simp [h1]
    rw [hbeq, Bool.or_false]
    simp only [cargoStep, if_neg h1]
    split
    · rfl
    · split
      · split <;> rfl
      · split
        · rfl
        · split <;> rfl

theorem cargoStep_hasSource (noRW accNil : Bool) (st : CargoSt) (l : Str) :
    (cargoStep noRW accNil st l).2.hasSource
      = (st.hasSource || (trimSpace l == cratesIOHeader)) := by
  by_cases h1 : trimSpace l = cratesIOHeader
  · rw [cargoStep_crates noRW accNil st l h1]
    simp [h1]
  · have hbeq : (trimSpace l == cratesIOHeader) = false := by
      simp [h1]
    rw [hbeq, Bool.or_false]
    simp only [cargoStep, if_neg h1]
    split
    · rfl
    · split
      · split <;> rfl
      · split
        · rfl
        · split <;> rfl

theorem cargoLoop_hasCrates (noRW : Bool) (L : List Str) (acc : List Str)
    (st : CargoSt) :
    (cargoLoop noRW L acc st).2.hasCrates
      = (st.hasCrates || L.any (fun l => trimSpace l == cratesIOHeader)) := by
  induction L generalizing acc st with
  | nil => simp [cargoLoop_nil]
  | cons l ls ih =>
    rw [cargoLoop_cons, ih, cargoStep_hasCrates]
    simp [List.any_cons, Bool.or_assoc]

theorem cargoLoop_hasSource (noRW : Bool) (L : List Str) (acc : List Str)
    (st : CargoSt) :
    (cargoLoop noRW L acc st).2.hasSource
      = (st.hasSource || L.any (fun l => trimSpace l == cratesIOHeader)) := by
  induction L generalizing acc st with
  | nil => simp [cargoLoop_nil]
  | cons l ls ih =>
    rw [cargoLoop_cons, ih, cargoStep_hasSource]
    simp [List.any_cons, Bool.or_assoc]

theorem cargoRegistryLine_decomp (u : Str) :
    cargoRegistryLine u = str "registry" ++ (str " = \"" ++ (u ++ str "\"")) := by
  show (str "registry = \"" ++ u) ++ str "\""
      = str "registry" ++ (str " = \"" ++ (u ++ str "\""))
  rw [List.append_assoc]
  rfl

theorem trimSpace_cargoRegistryLine (u : Str) :
    trimSpace (cargoRegistryLine u)
      = str "registry" ++ trimRightWs (str " = \"" ++ (u ++ str "\"")) := by
  rw [cargoRegistryLine_decomp,
    trimSpace_pat_append (str "registry") _ (by decide) (by decide)]

theorem cargoRegistryLine_head (u : Str) :
    trimSpace (cargoRegistryLine u)
      = 'r' :: (str "egistry" ++ trimRightWs (str " = \"" ++ (u ++ str "\""))) := by
  rw [trimSpace_cargoRegistryLine]
  rfl

theorem cargoRegistryLine_not_lbrack (u : Str) :
    startsWith (trimSpace (cargoRegistryLine u)) lbrack = false := by
  rw [cargoRegistryLine_head]
  simp [startsWith, lbrack, str, List.isPrefixOf]

theorem cargoRegistryLine_ne_crates (u : Str) :
    ¬ trimSpace (cargoRegistryLine u) = cratesIOHeader := by
  rw [cargoRegistryLine_head]
  intro h
  have h2 : ('r' :: (str "egistry" ++ trimRightWs (str " = \"" ++ (u ++ str "\""))))
      = '[' :: str "source.crates-io]" := h
  injection h2 with h3 h4
  exact absurd h3 (by decide)

theorem cargoRegistryLine_ne_ustc (u : Str) :
    ¬ trimSpace (cargoRegistryLine u) = ustcHeader := by
  rw [cargoRegistryLine_head]
  intro h
  have h2 : ('r' :: (str "egistry" ++ trimRightWs (str " = \"" ++ (u ++ str "\""))))
      = '[' :: str "source.ustc]" := h
  injection h2 with h3 h4
  exact absurd h3 (by decide)

theorem cargoRegistryLine_ne_nil (u : Str) :
    ¬ trimSpace (cargoRegistryLine u) = [] := by
  rw [cargoRegistryLine_head]
  simp

theorem startsWith_trimSpace_cargoRegistryLine (u : Str) :
    startsWith (trimSpace (cargoRegistryLine u)) (str "registry") = true := by
  rw [trimSpace_cargoRegistryLine]
  exact startsWith_of_append _ _

theorem noNl_cargoRegistryLine {u : Str} (hu : '\n' ∉ u) :
    '\n' ∉ cargoRegistryLine u := by
  rw [cargoRegistryLine_decomp]
  intro h
  rcases List.mem_append.1 h with h | h
  · revert h
    decide
  · rcases List.mem_append.1 h with h | h
    · revert h
      decide
    · rcases List.mem_append.1 h with h | h
      · exact hu h
      · revert h
        decide

theorem cargoEnableLines_nil (u : Str) :
    cargoEnableLines u []
      = [[], cratesIOHeader, rwLine, [], ustcHeader, cargoRegistryLine u] := by
  rfl

theorem cargoEnable_none_eq (u : Str) :
    cargoEnable u none
      = joinLines [[], cratesIOHeader, rwLine, [], ustcHeader, cargoRegistryLine u]
        ++ ['\n'] := by
  unfold cargoEnable
  rw [show fileText (none : Option Str) = [] from rfl, cargoEnableLines_nil]

theorem splitLines_cargoEnable_none (u : Str) (hu : '\n' ∉ u) :
    splitLines (cargoEnable u none)
      = [[], cratesIOHeader, rwLine, [], ustcHeader, cargoRegistryLine u, []] := by
  rw [cargoEnable_none_eq]
  have he : joinLines [[], cratesIOHeader, rwLine, [], ustcHeader, cargoRegistryLine u]
      ++ ['\n']
      = joinLines [[], cratesIOHeader, rwLine, [], ustcHeader, cargoRegistryLine u]
      ++ '\n' :: [] := rfl
  rw [he, splitLines_append_nl, splitLines_joinLines]
  · rfl
  · intro l hl
    simp at hl
    rcases hl with h | h | h | h | h | h
    · simp [h]
    · rw [h]
      decide
    · rw [h]
      decide
    · simp [h]
    · rw [h]
      decide
    · rw [h]
      exact noNl_cargoRegistryLine hu
  · simp

theorem containsSub_of_mem_line {content pat l : Str} {L : List Str}
    (hline : l ∈ L) (hpre : pat <+: l)
    (hc : content = joinLines L ++ ['\n']) : containsSub content pat = true := by
  rw [containsSub_iff, hc]
  exact ((hpre.isInfix.trans (infix_joinLines_of_mem hline)).trans
    (List.prefix_append _ _).isInfix)

theorem cargoEnableLines_again (u : Str) (hu : '\n' ∉ u) :
    cargoEnableLines u (cargoEnable u none)
      = [[], cratesIOHeader, rwLine, ustcHeader, cargoRegistryLine u] := by
  have hrw : containsSub (cargoEnable u none) rwKey = true :=
    containsSub_of_mem_line
      (by simp : rwLine ∈ [[], cratesIOHeader, rwLine, [], ustcHeader,
        cargoRegistryLine u])
      (by decide : rwKey <+: rwLine) (cargoEnable_none_eq u)
  have hustc : containsSub (cargoEnable u none) ustcHeader = true :=
    containsSub_of_mem_line
      (by simp : ustcHeader ∈ [[], cratesIOHeader, rwLine, [], ustcHeader,
        cargoRegistryLine u])
      (by decide : ustcHeader <+: ustcHeader) (cargoEnable_none_eq u)
  unfold cargoEnableLines
  rw [splitLines_cargoEnable_none u hu, hrw, hustc]
  rw [cargoLoop_cons_eq (!true) [] _ [] [[]] cargoInit cargoInit
    (cargoStep_keep (!true) (([] : List Str).isEmpty) cargoInit []
      (by decide) (by decide) (Or.inr rfl))]
  simp only [List.nil_append, List.cons_append, List.append_nil]
  rw [cargoLoop_cons_eq (!true) cratesIOHeader _ [[]] [cratesIOHeader]
    cargoInit ⟨true, true, true⟩
    (cargoStep_crates (!true) (([[]] : List Str).isEmpty) cargoInit
      cratesIOHeader (by decide))]
  simp only [List.nil_append, List.cons_append, List.append_nil]
  rw [cargoLoop_cons_eq (!true) rwLine _ [[], cratesIOHeader] [rwLine]
    ⟨true, true, true⟩ ⟨true, true, true⟩
    (cargoStep_rw (!true) (([[], cratesIOHeader] : List Str).isEmpty)
      ⟨true, true, true⟩ rwLine (by decide) ⟨rfl, by decide⟩)]
  simp only [List.nil_append, List.cons_append, List.append_nil]
  rw [cargoLoop_cons_eq (!true) [] _ [[], cratesIOHeader, rwLine] []
    ⟨true, true, true⟩ ⟨true, true, true⟩
    (cargoStep_blank (!true) (([[], cratesIOHeader, rwLine] : List Str).isEmpty)
      ⟨true, true, true⟩ [] (by decide) rfl)]
  simp only [List.nil_append, List.cons_append, List.append_nil]
  rw [cargoLoop_cons_eq (!true) ustcHeader _ [[], cratesIOHeader, rwLine]
    [ustcHeader] ⟨true, true, true⟩ ⟨true, true, false⟩
    (cargoStep_otherSource (!true)
      (([[], cratesIOHeader, rwLine] : List Str).isEmpty)
      ⟨true, true, true⟩ ustcHeader (by decide) (by decide))]
  simp only [List.nil_append, List.cons_append, List.append_nil]
  rw [cargoLoop_cons_eq (!true) (cargoRegistryLine u) _
    [[], cratesIOHeader, rwLine, ustcHeader] [cargoRegistryLine u]
    ⟨true, true, false⟩ ⟨true, true, false⟩
    (cargoStep_keep (!true)
      (([[], cratesIOHeader, rwLine, ustcHeader] : List Str).isEmpty)
      ⟨true, true, false⟩ (cargoRegistryLine u)
      (cargoRegistryLine_not_lbrack u)
      (fun hc => by simp at hc) (Or.inl (cargoRegistryLine_ne_nil u)))]
  simp only [List.nil_append, List.cons_append, List.append_nil]
  rw [cargoLoop_cons_eq (!true) [] _
    [[], cratesIOHeader, rwLine, ustcHeader, cargoRegistryLine u] []
    ⟨true, true, false⟩ ⟨true, true, false⟩
    (cargoStep_blank (!true)
      (([[], cratesIOHeader, rwLine, ustcHeader, cargoRegistryLine u]
        : List Str).isEmpty)
      ⟨true, true, false⟩ [] (by decide) rfl)]
  simp only [List.nil_append, List.cons_append, List.append_nil]
  rw [cargoLoop_nil]
  simp

theorem cargoEnable_again_eq (u : Str) (hu : '\n' ∉ u) :
    cargoEnable u (some (cargoEnable u none))
      = joinLines [[], cratesIOHeader, rwLine, ustcHeader, cargoRegistryLine u]
        ++ ['\n'] := by
  show joinLines (cargoEnableLines u (fileText (some (cargoEnable u none)))) ++ ['\n']
      = joinLines [[], cratesIOHeader, rwLine, ustcHeader, cargoRegistryLine u]
        ++ ['\n']
  rw [show fileText (some (cargoEnable u none)) = cargoEnable u none from rfl,
    cargoEnableLines_again u hu]

theorem splitLines_cargoEnable_again (u : Str) (hu : '\n' ∉ u) :
    splitLines (cargoEnable u (some (cargoEnable u none)))
      = [[], cratesIOHeader, rwLine, ustcHeader, cargoRegistryLine u, []] := by
  rw [cargoEnable_again_eq u hu]
  have he : joinLines [[], cratesIOHeader, rwLine, ustcHeader, cargoRegistryLine u]
      ++ ['\n']
      = joinLines [[], cratesIOHeader, rwLine, ustcHeader, cargoRegistryLine u]
      ++ '\n' :: [] := rfl
  rw [he, splitLines_append_nl, splitLines_joinLines]
  · rfl
  · intro l hl
    simp at hl
    rcases hl with h | h | h | h | h
    · simp [h]
    · rw [h]
      decide
    · rw [h]
      decide
    · rw [h]
      decide
    · rw [h]
      exact noNl_cargoRegistryLine hu
  · simp

theorem cargoEnable_not_idem (u : Str) (hu : '\n' ∉ u) :
    ¬ cargoEnable u (some (cargoEnable u none)) = cargoEnable u none := by
  intro h
  have h1 : (splitLines (cargoEnable u (some (cargoEnable u none)))).length
      = (splitLines (cargoEnable u none)).length :=
    congrArg (fun s => (splitLines s).length) h
  rw [splitLines_cargoEnable_again u hu] at h1
  rw [splitLines_cargoEnable_none u hu] at h1
  simp at h1

theorem cargoDisableLines_secHeader (l : Str) (ls : List Str) (skip : Bool)
    (h : trimSpace l = cratesIOHeader ∨ trimSpace l = ustcHeader) :
    cargoDisableLines (l :: ls) skip = cargoDisableLines ls true := by
  simp only [cargoDisableLines, if_pos h]

theorem cargoDisableLines_dropSkip (l : Str) (ls : List Str)
    (hn : ¬ (trimSpace l = cratesIOHeader ∨ trimSpace l = ustcHeader))
    (h3 : startsWith (trimSpace l) lbrack = false) :
    cargoDisableLines (l :: ls) true = cargoDisableLines ls true := by
  have h3' : ¬ startsWith (trimSpace l) lbrack = true := by
    rw [h3]
    decide
  simp only [cargoDisableLines, if_neg hn, if_neg h3']
  have hc : ¬ (true = false ∧ ¬ trimSpace l = []) := by
    intro hc
    exact absurd hc.1 (by decide)
  simp only [if_neg hc]

theorem cargoDisableLines_blank_noskip (l : Str) (ls : List Str)
    (ht : trimSpace l = []) :
    cargoDisableLines (l :: ls) false = cargoDisableLines ls false := by
  have hn : ¬ (trimSpace l = cratesIOHeader ∨ trimSpace l = ustcHeader) := by
    rw [ht]
    decide
  have h3' : ¬ startsWith (trimSpace l) lbrack = true := by
    rw [ht]
    decide
  simp only [cargoDisableLines, if_neg hn, if_neg h3']
  simp [ht]

theorem cargoDisable_roundtrip (u : Str) (hu : '\n' ∉ u) :
    cargoDisable (some (cargoEnable u none)) = none := by
  have hD : cargoDisableLines
      [[], cratesIOHeader, rwLine, [], ustcHeader, cargoRegistryLine u, []] false
      = [] := by
    rw [cargoDisableLines_blank_noskip _ _ (by decide)]
    rw [cargoDisableLines_secHeader _ _ _ (Or.inl (by decide))]
    rw [cargoDisableLines_dropSkip _ _ (by decide) (by decide)]
    rw [cargoDisableLines_dropSkip _ _ (by decide) (by decide)]
    rw [cargoDisableLines_secHeader _ _ _ (Or.inr (by decide))]
    rw [cargoDisableLines_dropSkip _ _
      (fun hc => hc.elim (cargoRegistryLine_ne_crates u) (cargoRegistryLine_ne_ustc u))
      (cargoRegistryLine_not_lbrack u)]
    rw [cargoDisableLines_dropSkip _ _ (by decide) (by decide)]
    rfl
  show (let newLines := cargoDisableLines (splitLines (cargoEnable u none)) false
    if newLines.length > 0 then some (joinLines newLines ++ ['\n']) else none) = none
  rw [splitLines_cargoEnable_none u hu, hD]
  rfl

theorem joinLines_splitLines (s : Str) : joinLines (splitLines s) = s := by
  induction s with
  | nil => rfl
  | cons c cs ih =>
    have hne := splitLines_ne_nil cs
    cases hh : splitLines cs with
    | nil => exact absurd hh hne
    | cons a as =>
      rw [hh] at ih
      by_cases hc : c = '\n'
      · subst hc
        show joinLines (splitLines ('\n' :: cs)) = '\n' :: cs
        rw [show splitLines ('\n' :: cs) = [] :: splitLines cs from by
          simp [splitLines], hh]
        show ([] : Str) ++ '\n' :: joinLines (a :: as) = '\n' :: cs
        rw [List.nil_append, ih]
      · show joinLines (splitLines (c :: cs)) = c :: cs
        rw [show splitLines (c :: cs)
            = (c :: (splitLines cs).headI) :: (splitLines cs).tail from by
          simp [splitLines, hc], hh]
        cases as with
        | nil =>
          show c :: a = c :: cs
          rw [show joinLines [a] = a from rfl] at ih
          rw [ih]
        | cons b bs =>
          show (c :: a) ++ '\n' :: joinLines (b :: bs) = c :: cs
          rw [List.cons_append]
          rw [show a ++ '\n' :: joinLines (b :: bs) = joinLines (a :: b :: bs)
            from rfl, ih]

theorem infix_snoc_nl {pat s : Str} (hne : pat ≠ []) (hn : '\n' ∉ pat)
    (h : pat <:+: s ++ ['\n']) : pat <:+: s := by
  rcases h with ⟨t1, t2, heq⟩
  rcases List.eq_nil_or_concat t2 with h2 | ⟨t3, c, h2⟩
  · subst h2
    rw [List.append_nil] at heq
    have hrev := congrArg List.reverse heq
    rw [List.reverse_append, List.reverse_append] at hrev
    cases hp : pat.reverse with
    | nil =>
      rw [List.reverse_eq_nil_iff] at hp
      exact absurd hp hne
    | cons p0 pr =>
      rw [hp] at hrev
      have hrev2 : p0 :: (pr ++ t1.reverse) = '\n' :: s.reverse := by
        simpa using hrev
      injection hrev2 with h1 h2
      have hmem : p0 ∈ pat := by
        rw [← List.mem_reverse, hp]
        simp
      exact absurd (h1 ▸ hmem) hn
  · subst h2
    have heq2 : (t1 ++ pat ++ t3) ++ [c] = s ++ ['\n'] := by
      rw [← heq]
      simp [List.append_assoc]
    have hinj := List.append_inj' heq2 rfl
    exact ⟨t1, t3, hinj.1⟩

theorem splitLines_cons_of_noNl (a b : Str) (ha : '\n' ∉ a) :
    splitLines (a ++ '\n' :: b) = a :: splitLines b := by
  rw [splitLines_append_nl, splitLines_of_noNl a ha]
  rfl

theorem exportLine_decomp (v : Str) : exportLine v = exportKey ++ v := rfl

theorem noNl_exportLine {v : Str} (hv : '\n' ∉ v) : '\n' ∉ exportLine v := by
  rw [exportLine_decomp]
  intro h
  rcases List.mem_append.1 h with h | h
  · revert h
    decide
  · exact hv h

theorem containsSub_exportLine (v : Str) :
    containsSub (exportLine v) exportKey = true := by
  rw [containsSub_iff, exportLine_decomp]
  exact (List.prefix_append _ _).isInfix

theorem goEnable_replace {v : Str} {rc : Option Str}
    (hc : containsSub (fileText rc) exportKey = true) :
    goEnable v rc = joinLines ((splitLines (fileText rc)).map
      (fun l => if containsSub l exportKey = true then exportLine v else l)) := by
  simp only [goEnable, if_pos hc]

theorem goEnable_append {v : Str} {rc : Option Str}
    (hc : ¬ containsSub (fileText rc) exportKey = true) :
    goEnable v rc = (if endsWith (fileText rc) (str "\n") = true then fileText rc
        else fileText rc ++ ['\n'])
      ++ '\n' :: (croshSentinel ++ '\n' :: (exportLine v ++ ['\n'])) := by
  simp only [goEnable, if_neg hc]

theorem goMapF_noNl {v : Str} (hv : '\n' ∉ v) {lines : List Str}
    (hL : ∀ l ∈ lines, '\n' ∉ l) :
    ∀ l ∈ lines.map (fun l => if containsSub l exportKey = true
      then exportLine v else l), '\n' ∉ l := by
  intro l hl
  rcases List.mem_map.1 hl with ⟨x, hx, hxl⟩
  by_cases hcl : containsSub x exportKey = true
  · rw [← hxl, if_pos hcl]
    exact noNl_exportLine hv
  · rw [← hxl, if_neg hcl]
    exact hL x hx

theorem goEnable_idem (v : Str) (hv : '\n' ∉ v) (rc : Option Str) :
    goEnable v (some (goEnable v rc)) = goEnable v rc := by
  by_cases hc : containsSub (fileText rc) exportKey = true
  · rw [goEnable_replace hc]
    have hnoNl := goMapF_noNl hv
      (fun l hl => @noNl_mem_splitLines l (fileText rc) hl)
    have hnn : (splitLines (fileText rc)).map (fun l =>
        if containsSub l exportKey = true then exportLine v else l) ≠ [] := by
      intro hcn
      exact splitLines_ne_nil (fileText rc) (List.map_eq_nil_iff.1 hcn)
    have hsl : splitLines (joinLines ((splitLines (fileText rc)).map (fun l =>
        if containsSub l exportKey = true then exportLine v else l)))
        = (splitLines (fileText rc)).map (fun l =>
          if containsSub l exportKey = true then exportLine v else l) :=
      splitLines_joinLines _ hnoNl hnn
    have hc2 : containsSub (fileText (some (joinLines ((splitLines
        (fileText rc)).map (fun l => if containsSub l exportKey = true
          then exportLine v else l))))) exportKey = true := by
      show containsSub (joinLines ((splitLines (fileText rc)).map (fun l =>
        if containsSub l exportKey = true then exportLine v else l)))
        exportKey = true
      rcases infix_splitLines_exists (by decide : '\n' ∉ exportKey)
        ((containsSub_iff _ _).1 hc) with ⟨l0, hl0, hkl0⟩
      have hcl0 : containsSub l0 exportKey = true := (containsSub_iff _ _).2 hkl0
      have hmem : exportLine v ∈ (splitLines (fileText rc)).map (fun l =>
          if containsSub l exportKey = true then exportLine v else l) :=
        List.mem_map.2 ⟨l0, hl0, by rw [if_pos hcl0]⟩
      rw [containsSub_iff]
      exact ((containsSub_iff _ _).1 (containsSub_exportLine v)).trans
        (infix_joinLines_of_mem hmem)
    rw [goEnable_replace hc2]
    rw [show fileText (some (joinLines ((splitLines (fileText rc)).map (fun l =>
        if containsSub l exportKey = true then exportLine v else l))))
      = joinLines ((splitLines (fileText rc)).map (fun l =>
        if containsSub l exportKey = true then exportLine v else l)) from rfl]
    rw [hsl, List.map_map]
    congr 1
    apply List.map_congr_left
    intro a ha
    by_cases hca : containsSub a exportKey = true
    · show (if containsSub (if containsSub a exportKey = true then exportLine v
        else a) exportKey = true then exportLine v else
          (if containsSub a exportKey = true then exportLine v else a))
        = if containsSub a exportKey = true then exportLine v else a
      rw [if_pos hca, if_pos (containsSub_exportLine v)]
    · show (if containsSub (if containsSub a exportKey = true then exportLine v
        else a) exportKey = true then exportLine v else
          (if containsSub a exportKey = true then exportLine v else a))
        = if containsSub a exportKey = true then exportLine v else a
      rw [if_neg hca, if_neg hca]
  · rw [goEnable_append hc]
    have hsplit : splitLines ((if endsWith (fileText rc) (str "\n") = true
          then fileText rc else fileText rc ++ ['\n'])
        ++ '\n' :: (croshSentinel ++ '\n' :: (exportLine v ++ ['\n'])))
        = splitLines (if endsWith (fileText rc) (str "\n") = true
            then fileText rc else fileText rc ++ ['\n'])
          ++ croshSentinel :: exportLine v :: [[]] := by
      rw [splitLines_append_nl, splitLines_cons_of_noNl _ _ (by decide)]
      rw [show exportLine v ++ ['\n'] = exportLine v ++ '\n' :: [] from rfl,
        splitLines_cons_of_noNl _ _ (noNl_exportLine hv)]
      rfl
    have hc2 : containsSub (fileText (some ((if endsWith (fileText rc)
          (str "\n") = true then fileText rc else fileText rc ++ ['\n'])
        ++ '\n' :: (croshSentinel ++ '\n' :: (exportLine v ++ ['\n'])))))
        exportKey = true := by
      rw [containsSub_iff]
      have hkey : exportKey <+: exportLine v := by
        rw [exportLine_decomp]
        exact List.prefix_append _ _
      have h1 : exportLine v <:+: exportLine v ++ ['\n'] :=
        (List.prefix_append _ _).isInfix
      have h2 : exportLine v ++ ['\n'] <:+ '\n' :: (exportLine v ++ ['\n']) :=
        List.suffix_cons _ _
      have h3 : '\n' :: (exportLine v ++ ['\n'])
          <:+ croshSentinel ++ '\n' :: (exportLine v ++ ['\n']) :=
        List.suffix_append _ _
      have h4 : croshSentinel ++ '\n' :: (exportLine v ++ ['\n'])
          <:+ '\n' :: (croshSentinel ++ '\n' :: (exportLine v ++ ['\n'])) :=
        List.suffix_cons _ _
      have h5 : '\n' :: (croshSentinel ++ '\n' :: (exportLine v ++ ['\n']))
          <:+ (if endsWith (fileText rc) (str "\n") = true then fileText rc
              else fileText rc ++ ['\n'])
            ++ '\n' :: (croshSentinel ++ '\n' :: (exportLine v ++ ['\n'])) :=
        List.suffix_append _ _
      exact ((((hkey.isInfix.trans h1).trans h2.isInfix).trans
        h3.isInfix).trans h4.isInfix).trans h5.isInfix
    rw [goEnable_replace hc2]
    rw [show fileText (some ((if endsWith (fileText rc) (str "\n") = true
          then fileText rc else fileText rc ++ ['\n'])
        ++ '\n' :: (croshSentinel ++ '\n' :: (exportLine v ++ ['\n']))))
      = (if endsWith (fileText rc) (str "\n") = true then fileText rc
          else fileText rc ++ ['\n'])
        ++ '\n' :: (croshSentinel ++ '\n' :: (exportLine v ++ ['\n'])) from rfl]
    conv_lhs => rw [hsplit]
    rw [List.map_append]
    have hmap1 : (splitLines (if endsWith (fileText rc) (str "\n") = true
        then fileText rc else fileText rc ++ ['\n'])).map
        (fun l => if containsSub l exportKey = true then exportLine v else l)
        = splitLines (if endsWith (fileText rc) (str "\n") = true
          then fileText rc else fileText rc ++ ['\n']) := by
      have : ∀ a ∈ splitLines (if endsWith (fileText rc) (str "\n") = true
          then fileText rc else fileText rc ++ ['\n']),
          (if containsSub a exportKey = true then exportLine v else a) = a := by
        intro a ha
        have hinf := mem_splitLines_infix ha
        have hne1 : ¬ containsSub a exportKey = true := by
          intro hca
          have h1 := ((containsSub_iff _ _).1 hca).trans hinf
          by_cases hend : endsWith (fileText rc) (str "\n") = true
          · rw [if_pos hend] at h1
            exact hc ((containsSub_iff _ _).2 h1)
          · rw [if_neg hend] at h1
            exact hc ((containsSub_iff _ _).2
              (infix_snoc_nl (by decide) (by decide) h1))
        rw [if_neg hne1]
      rw [List.map_congr_left this]
      simp
    have hmap2 : (croshSentinel :: exportLine v :: [[]]).map
        (fun l => if containsSub l exportKey = true then exportLine v else l)
        = croshSentinel :: exportLine v :: [[]] := by
      simp only [List.map_cons, List.map_nil]
      rw [if_neg (show ¬ containsSub croshSentinel exportKey = true from by decide)]
      rw [if_pos (containsSub_exportLine v)]
      rw [if_neg (show ¬ containsSub ([] : Str) exportKey = true from by decide)]
    rw [hmap1, hmap2, ← hsplit, joinLines_splitLines]

theorem exportLine_head_decomp (v : Str) :
    exportLine v = str "export" ++ (str " GOPROXY=" ++ v) := rfl

theorem trimSpace_exportLine_ne_sentinel (v : Str) :
    ¬ trimSpace (exportLine v) = croshSentinel := by
  rw [exportLine_head_decomp,
    trimSpace_pat_append (str "export") _ (by decide) (by decide)]
  intro h
  have h2 : ('e' :: (str "xport" ++ trimRightWs (str " GOPROXY=" ++ v)))
      = '#' :: str " Added by crosh" := h
  injection h2 with h3 h4
  exact absurd h3 (by decide)

theorem goDisableLines_sentinel (l : Str) (ls : List Str) (sk : Bool)
    (h : trimSpace l = croshSentinel) :
    goDisableLines (l :: ls) sk = goDisableLines ls true := by
  simp only [goDisableLines, if_pos h]

theorem goDisableLines_dropExport (l : Str) (ls : List Str)
    (hns : ¬ trimSpace l = croshSentinel)
    (hcont : containsSub l exportKey = true) :
    goDisableLines (l :: ls) true = goDisableLines ls false := by
  simp only [goDisableLines, if_neg hns]
  rw [if_pos (And.intro trivial hcont)]

theorem goDisableLines_keep (l : Str) (ls : List Str) (sk : Bool)
    (hns : ¬ trimSpace l = croshSentinel)
    (hnc : containsSub l exportKey = false) :
    goDisableLines (l :: ls) sk = l :: goDisableLines ls sk := by
  have hn2 : ¬ (sk = true ∧ containsSub l exportKey = true) := by
    intro hcc
    rw [hnc] at hcc
    exact absurd hcc.2 (by decide)
  have hn3 : ¬ containsSub l exportKey = true := by
    rw [hnc]
    decide
  simp only [goDisableLines, if_neg hns, if_neg hn2, if_pos hn3]

theorem goEnable_none_eq (v : Str) :
    goEnable v none
      = '\n' :: '\n' :: (croshSentinel ++ '\n' :: (exportLine v ++ ['\n'])) := by
  rw [goEnable_append (by decide)]
  rfl

theorem goDisable_roundtrip (v : Str) (hv : '\n' ∉ v) :
    goDisable (some (goEnable v none)) = some ['\n', '\n'] := by
  have hsplit : splitLines (goEnable v none)
      = [] :: [] :: croshSentinel :: exportLine v :: [[]] := by
    rw [goEnable_none_eq]
    rw [show ('\n' :: '\n' :: (croshSentinel ++ '\n' :: (exportLine v ++ ['\n'])))
      = ([] : Str) ++ '\n' :: (([] : Str)
          ++ '\n' :: (croshSentinel ++ '\n' :: (exportLine v ++ ['\n']))) from rfl]
    rw [splitLines_cons_of_noNl _ _ (by decide),
      splitLines_cons_of_noNl _ _ (by decide),
      splitLines_cons_of_noNl _ _ (by decide)]
    rw [show exportLine v ++ ['\n'] = exportLine v ++ '\n' :: [] from rfl,
      splitLines_cons_of_noNl _ _ (noNl_exportLine hv)]
    rfl
  show some (joinLines (goDisableLines (splitLines (goEnable v none)) false))
      = some ['\n', '\n']
  rw [hsplit]
  rw [goDisableLines_keep _ _ _ (by decide) (by decide)]
  rw [goDisableLines_keep _ _ _ (by decide) (by decide)]
  rw [goDisableLines_sentinel _ _ _ (by decide)]
  rw [goDisableLines_dropExport _ _ (trimSpace_exportLine_ne_sentinel v)
    (containsSub_exportLine v)]
  rw [goDisableLines_keep _ _ _ (by decide) (by decide)]
  rfl

theorem npmEnable_none_eq (v : Str) :
    npmEnable v none = registryLine v ++ ['\n'] := rfl

theorem npmDisableLines_drop (l : Str) (ls : List Str)
    (h : ¬ (¬ npmMatch l = true ∧ trimSpace l ≠ [])) :
    npmDisableLines (l :: ls) = npmDisableLines ls := by
  simp only [npmDisableLines, if_neg h]

theorem npmDisable_roundtrip (v : Str) (hv : '\n' ∉ v) :
    npmDisable (some (npmEnable v none)) = none := by
  have hsplit : splitLines (npmEnable v none) = [registryLine v, []] := by
    rw [npmEnable_none_eq,
      show registryLine v ++ ['\n'] = registryLine v ++ '\n' :: [] from rfl,
      splitLines_cons_of_noNl _ _ (noNl_str_registryLine hv)]
    rfl
  show (let newLines := npmDisableLines (splitLines (npmEnable v none))
    if newLines.length > 0 then some (joinLines newLines ++ ['\n']) else none)
      = none
  rw [hsplit]
  rw [npmDisableLines_drop _ _ (fun hc => hc.1 (npmMatch_registryLine v))]
  rw [npmDisableLines_drop [] _ (fun hc => hc.2 rfl)]
  rfl

theorem pipEnable_none_eq (v : Str) :
    pipEnable v none = globalHeader ++ '\n' :: (indexLine v ++ ['\n']) := rfl

theorem pipDisableLines_keep (l : Str) (ls : List Str)
    (h1 : ¬ startsWith (trimSpace l) indexKey = true)
    (h2 : ¬ trimSpace l = []) :
    pipDisableLines (l :: ls) = l :: pipDisableLines ls := by
  simp only [pipDisableLines, if_pos (And.intro h1 h2)]

theorem pipDisableLines_drop (l : Str) (ls : List Str)
    (h : ¬ (¬ startsWith (trimSpace l) indexKey = true ∧ ¬ trimSpace l = [])) :
    pipDisableLines (l :: ls) = pipDisableLines ls := by
  simp only [pipDisableLines, if_neg h]

theorem pipDisable_roundtrip (v : Str) (hv : '\n' ∉ v) :
    pipDisable (some (pipEnable v none)) = some (globalHeader ++ ['\n']) := by
  have hsplit : splitLines (pipEnable v none)
      = globalHeader :: indexLine v :: [[]] := by
    rw [pipEnable_none_eq, splitLines_cons_of_noNl _ _ (by decide),
      show indexLine v ++ ['\n'] = indexLine v ++ '\n' :: [] from rfl,
      splitLines_cons_of_noNl _ _ (noNl_indexLine hv)]
    rfl
  show (let newLines := pipDisableLines (splitLines (pipEnable v none))
    if newLines.length > 0 then some (joinLines newLines ++ ['\n']) else none)
      = some (globalHeader ++ ['\n'])
  rw [hsplit]
  rw [pipDisableLines_keep _ _ (by decide) (by decide)]
  rw [pipDisableLines_drop _ _ (fun hc => hc.1 (startsWith_trimSpace_indexLine v))]
  rw [pipDisableLines_drop [] _ (fun hc => hc.2 rfl)]
  rfl

theorem setKey_idem (o : JObj) (k : Str) (v : JVal) :
    setKey (setKey o k v) k v = setKey o k v := by
  induction o with
  | nil => simp [setKey]
  | cons p rest ih =>
    by_cases hk : p.1 = k
    · simp [setKey, hk]
    · simp [setKey, hk, ih]

theorem dockerEnable_idem (d : Bool) (regs : List Str) (fs : DockerFS) :
    dockerEnable d regs (dockerEnable d regs fs) = dockerEnable d regs fs := by
  cases d with
  | true => rfl
  | false =>
    by_cases hr : regs.length > 0
    · cases fs with
      | mk file backup =>
        cases file with
        | absent => simp [dockerEnable, hr, setKey_idem]
        | corrupt raw => simp [dockerEnable, hr, setKey_idem]
        | valid o => simp [dockerEnable, hr, setKey_idem]
    · cases fs with
      | mk file backup =>
        cases file with
        | absent => simp [dockerEnable, hr]
        | corrupt raw => simp [dockerEnable, hr]
        | valid o => simp [dockerEnable, hr]

theorem dockerRoundtrip_absent (regs : List Str) :
    dockerDisable false (dockerEnable false regs ⟨.absent, none⟩)
      = .ok ⟨.absent, none⟩ := by
  by_cases hr : regs.length > 0
  · simp [dockerEnable, dockerDisable, hr, setKey, delKey]
  · simp [dockerEnable, dockerDisable, hr, delKey]

theorem dockerRoundtrip_empty (regs : List Str) :
    dockerDisable false (dockerEnable false regs ⟨.corrupt [], none⟩)
      = .ok ⟨.absent, some []⟩ := by
  by_cases hr : regs.length > 0
  · simp [dockerEnable, dockerDisable, hr, setKey, delKey]
  · simp [dockerEnable, dockerDisable, hr, delKey]

theorem dockerEnable_corrupt (regs : List Str) (raw : Str) (b : Option Str)
    (hr : regs ≠ []) :
    dockerEnable false regs ⟨.corrupt raw, b⟩
      = ⟨.valid [(registryMirrorsKey,
          .arr (regs.map (fun r => .s (formatRegistry r))))], some raw⟩ := by
  have hl : regs.length > 0 := List.length_pos.2 hr
  simp [dockerEnable, hl, setKey]

theorem startsWith_lbrack_ne_nil {t : Str} (h : startsWith t lbrack = true) :
    ¬ t = [] := by
  intro he
  rw [he] at h
  exact absurd h (by decide)

theorem pipLoop_no_global (u : Str) (L : List Str)
    (h : ∀ l ∈ L, ¬ trimSpace l = globalHeader) (g i : Bool) :
    pipLoop u L ⟨g, i, false⟩
      = (L.filter (fun l => !(trimSpace l).isEmpty), ⟨g, i, false⟩) := by
  induction L with
  | nil => simp [pipLoop_nil]
  | cons l ls ih =>
    have h1 : ¬ trimSpace l = globalHeader := h l (by simp)
    have hrest : ∀ x ∈ ls, ¬ trimSpace x = globalHeader :=
      fun x hx => h x (List.mem_cons_of_mem _ hx)
    rw [pipLoop_cons]
    by_cases h2 : startsWith (trimSpace l) lbrack = true
    · rw [pipStep_header_keep u _ l h1 h2 (fun hc => by simpa using hc.1)]
      have hne : (trimSpace l).isEmpty = false := by
        cases ht : trimSpace l with
        | nil => exact absurd ht (startsWith_lbrack_ne_nil h2)
        | cons a as => rfl
      rw [show ({ (⟨g, i, false⟩ : PipSt) with inGlobal := false } : PipSt)
        = ⟨g, i, false⟩ from rfl]
      rw [ih hrest]
      simp [List.filter_cons, hne]
    · have h4 : ¬ ((⟨g, i, false⟩ : PipSt).inGlobal = true ∧
          startsWith (trimSpace l) indexKey = true) :=
        fun hc => by simpa using hc.1
      by_cases h5 : trimSpace l = []
      · rw [pipStep_blank u _ l h5, ih hrest]
        simp [List.filter_cons, h5]
      · rw [pipStep_keep u _ l h1 h2 h4 h5, ih hrest]
        have hne : (trimSpace l).isEmpty = false := by
          cases ht : trimSpace l with
          | nil => exact absurd ht h5
          | cons a as => rfl
        simp [List.filter_cons, hne]

theorem startsWith_indexKey_facts {t : Str} (h : startsWith t indexKey = true) :
    ¬ t = globalHeader ∧ startsWith t lbrack = false := by
  cases t with
  | nil => exact absurd h (by decide)
  | cons c t1 =>
    have hc : c = 'i' := by
      have h2 : List.isPrefixOf ('i' :: str "ndex-url") (c :: t1) = true := h
      rw [List.isPrefixOf, Bool.and_eq_true] at h2
      have h3 := h2.1
      exact (beq_iff_eq.1 h3).symm
    subst hc
    constructor
    · intro he
      have h4 : ('i' :: t1).headI = ('[' :: str "global]").headI := by rw [he]; rfl
      simp at h4
    · rfl

theorem cargoStatusLoop_find (L : List Str) :
    cargoStatusLoop L = (L.find? cargoStatusMatch).map
      (fun l => trimChar (Char.ofNat 34)
        (trimSpace ((splitEq1 (trimSpace l)).getD ([], [])).2)) := by
  induction L with
  | nil => rfl
  | cons l ls ih =>
    by_cases h1 : startsWith (trimSpace l) (str "registry") = true
    · cases hsp : splitEq1 (trimSpace l) with
      | none =>
        have hm : cargoStatusMatch l = false := by
          simp [cargoStatusMatch, h1, hsp]
        simp [cargoStatusLoop, h1, hsp, List.find?_cons, hm, ih]
      | some p =>
        have hm : cargoStatusMatch l = true := by
          simp [cargoStatusMatch, h1, hsp]
        simp [cargoStatusLoop, h1, hsp, List.find?_cons, hm]
    · have hm : cargoStatusMatch l = false := by
        simp [cargoStatusMatch, h1]
      have h1' : startsWith (trimSpace l) (str "registry") = false := by
        cases hv : startsWith (trimSpace l) (str "registry")
        · rfl
        · exact absurd hv h1
      simp [cargoStatusLoop, h1', List.find?_cons, hm, ih]

/-- Claim C1 (amended): `Enable(v); Enable(v)` is byte-idempotent for the
npm, pip, go and docker mutators, for every starting file content
(absent included) and every newline-free value; for cargo it is not:
starting from an absent file, the second `Enable` strips the blank
separator line the first one appended, so the second file differs from
the first. -/
theorem crosh_c1_amended : ∀ v : Str, '\n' ∉ v →
    (∀ f : Option Str, npmEnable v (some (npmEnable v f)) = npmEnable v f)
    ∧ (∀ f : Option Str, pipEnable v (some (pipEnable v f)) = pipEnable v f)
    ∧ (∀ rc : Option Str, goEnable v (some (goEnable v rc)) = goEnable v rc)
    ∧ (∀ (d : Bool) (regs : List Str) (fs : DockerFS),
        dockerEnable d regs (dockerEnable d regs fs) = dockerEnable d regs fs)
    ∧ ¬ cargoEnable v (some (cargoEnable v none)) = cargoEnable v none := by
  intro v hv
  exact ⟨npmEnable_idem v hv, pipEnable_idem v hv, goEnable_idem v hv,
    dockerEnable_idem, cargoEnable_not_idem v hv⟩

/-- Claim C1 witness: the amended statement instantiated at a concrete
newline-free value. -/
theorem crosh_c1_witness :
    ('\n' ∉ str "https://m.example") ∧
    ((∀ f : Option Str, npmEnable (str "https://m.example")
        (some (npmEnable (str "https://m.example") f))
        = npmEnable (str "https://m.example") f)
    ∧ (∀ f : Option Str, pipEnable (str "https://m.example")
        (some (pipEnable (str "https://m.example") f))
        = pipEnable (str "https://m.example") f)
    ∧ (∀ rc : Option Str, goEnable (str "https://m.example")
        (some (goEnable (str "https://m.example") rc))
        = goEnable (str "https://m.example") rc)
    ∧ (∀ (d : Bool) (regs : List Str) (fs : DockerFS),
        dockerEnable d regs (dockerEnable d regs fs) = dockerEnable d regs fs)
    ∧ ¬ cargoEnable (str "https://m.example")
        (some (cargoEnable (str "https://m.example") none))
        = cargoEnable (str "https://m.example") none) :=
  ⟨by decide, crosh_c1_amended (str "https://m.example") (by decide)⟩

/-- Claim C1 counterexample: for the cargo mutator, starting from an
absent file, running `Enable("u")` twice yields a file that differs from
a single `Enable("u")` (the blank line before `[source.ustc]` is
stripped), refuting the claim as stated for "every mutator". -/
theorem crosh_c1_counterexample :
    ¬ cargoEnable (str "u") (some (cargoEnable (str "u") none))
      = cargoEnable (str "u") none := by
  exact cargoEnable_not_idem (str "u") (by decide)

/-- Claim C2 (amended): from an absent (or empty) start, `Enable(v);
Disable()` leaves the npm, cargo and docker target files absent — so an
initially empty file ends absent rather than empty — while pip leaves a
file containing exactly `[global]` and a newline, and go leaves the rc
file containing two newlines; docker additionally keeps a `.backup` of
an initially empty (hence unparsable) file. -/
theorem crosh_c2_amended : ∀ v : Str, '\n' ∉ v →
    npmDisable (some (npmEnable v none)) = none
    ∧ npmDisable (some (npmEnable v (some []))) = none
    ∧ cargoDisable (some (cargoEnable v none)) = none
    ∧ (∀ regs : List Str,
        dockerDisable false (dockerEnable false regs ⟨.absent, none⟩)
          = .ok ⟨.absent, none⟩)
    ∧ (∀ regs : List Str,
        dockerDisable false (dockerEnable false regs ⟨.corrupt [], none⟩)
          = .ok ⟨.absent, some []⟩)
    ∧ pipDisable (some (pipEnable v none)) = some (globalHeader ++ ['\n'])
    ∧ goDisable (some (goEnable v none)) = some ['\n', '\n'] := by
  intro v hv
  exact ⟨npmDisable_roundtrip v hv, npmDisable_roundtrip v hv,
    cargoDisable_roundtrip v hv, dockerRoundtrip_absent, dockerRoundtrip_empty,
    pipDisable_roundtrip v hv, goDisable_roundtrip v hv⟩

/-- Claim C2 witness: the amended statement instantiated at a concrete
newline-free value. -/
theorem crosh_c2_witness :
    ('\n' ∉ str "u") ∧
    (npmDisable (some (npmEnable (str "u") none)) = none
    ∧ npmDisable (some (npmEnable (str "u") (some []))) = none
    ∧ cargoDisable (some (cargoEnable (str "u") none)) = none
    ∧ (∀ regs : List Str,
        dockerDisable false (dockerEnable false regs ⟨.absent, none⟩)
          = .ok ⟨.absent, none⟩)
    ∧ (∀ regs : List Str,
        dockerDisable false (dockerEnable false regs ⟨.corrupt [], none⟩)
          = .ok ⟨.absent, some []⟩)
    ∧ pipDisable (some (pipEnable (str "u") none)) = some (globalHeader ++ ['\n'])
    ∧ goDisable (some (goEnable (str "u") none)) = some ['\n', '\n']) :=
  ⟨by decide, crosh_c2_amended (str "u") (by decide)⟩

/-- Claim C2 counterexample: for the pip mutator starting from an absent
file, `Enable("u"); Disable()` does not restore absence: a file holding
exactly `[global]` plus a newline remains, refuting the claim as stated. -/
theorem crosh_c2_counterexample :
    ¬ pipDisable (some (pipEnable (str "u") none)) = none := by
  rw [pipDisable_roundtrip (str "u") (by decide)]
  intro h
  exact Option.noConfusion h

/-- Claim C3 (amended): during the cargo Enable scan, the
`replace-with = 'ustc'` synthesis before a new header happens only for
headers that are NOT `[source.*]` headers (another `[source.*]` header
merely clears the in-section flag, with no insertion), and the "no
replace-with seen" condition is the whole-original-file substring test
`!strings.Contains(existingContent, "replace-with")` (here the flag
`noRW`); an existing `replace-with` line inside the tracked section is
replaced unconditionally with the fixed `'ustc'` value. -/
theorem crosh_c3_amended :
    (∀ (accNil : Bool) (st : CargoSt) (l : Str), st.inCrates = true →
      startsWith (trimSpace l) lbrack = true →
      startsWith (trimSpace l) sourceDot = false →
      cargoStep true accNil st l = ([rwLine, l], { st with inCrates := false }))
    ∧ (∀ (noRW accNil : Bool) (st : CargoSt) (l : Str),
      startsWith (trimSpace l) sourceDot = true →
      ¬ trimSpace l = cratesIOHeader →
      cargoStep noRW accNil st l = ([l], { st with inCrates := false }))
    ∧ (∀ (noRW accNil : Bool) (st : CargoSt) (l : Str), st.inCrates = true →
      startsWith (trimSpace l) lbrack = false →
      startsWith (trimSpace l) rwKey = true →
      cargoStep noRW accNil st l = ([rwLine], st)) := by
  refine ⟨?_, ?_, ?_⟩
  · intro accNil st l hC h3 h2
    exact cargoStep_header_insert accNil st l
      (by rw [h2]; decide) h3 hC
  · intro noRW accNil st l h2 h1
    exact cargoStep_otherSource noRW accNil st l h1 h2
  · intro noRW accNil st l hC h3 hK
    exact cargoStep_rw noRW accNil st l h3 ⟨hC, hK⟩

/-- Claim C3 witness: the three amended clauses at concrete lines — a
`[build]` header triggers the insertion, a `[source.other]` header does
not, and a `replace-with` line is replaced in place. -/
theorem crosh_c3_witness :
    cargoStep true true ⟨true, true, true⟩ (str "[build]")
      = ([rwLine, str "[build]"], ⟨true, true, false⟩)
    ∧ cargoStep true true ⟨true, true, true⟩ (str "[source.other]")
      = ([str "[source.other]"], ⟨true, true, false⟩)
    ∧ cargoStep false false ⟨true, true, true⟩ (str "replace-with=old")
      = ([rwLine], ⟨true, true, true⟩) :=
  ⟨crosh_c3_amended.1 true ⟨true, true, true⟩ (str "[build]") rfl
      (by decide) (by decide),
   crosh_c3_amended.2.1 true true ⟨true, true, true⟩ (str "[source.other]")
      (by decide) (by decide),
   crosh_c3_amended.2.2 false false ⟨true, true, true⟩ (str "replace-with=old")
      rfl (by decide) (by decide)⟩

/-- Claim C3 counterexample: with `[source.crates-io]` immediately
followed by `[source.other]` and no `replace-with` anywhere, the claim
requires a `replace-with = 'ustc'` line to be inserted before the
`[source.other]` header; the code inserts nothing — the whole Enable
result contains no `replace-with` line at all. -/
theorem crosh_c3_counterexample :
    rwLine ∉ cargoEnableLines (str "u")
      (str "[source.crates-io]" ++ '\n' :: str "[source.other]") := by
  decide

/-- Claim C4 (amended): after the cargo Enable scan, whether the
`[source.crates-io]` / `replace-with` pair plus the `[source.ustc]`
block is appended depends only on whether a line trimming to
`[source.crates-io]` existed in the input — the `replace-with` key plays
no role in that decision (the two flags `hasSourceSection` and
`hasCratesIOSection` are set at the same single place and always agree);
when that section existed but the file lacks the `[source.ustc]`
substring, only the `[source.ustc]` block is appended, and when both are
present nothing is appended. -/
theorem crosh_c4_amended : ∀ (u : Str) (content : Str),
    ((cargoLoop (!containsSub content rwKey) (splitLines content) []
        cargoInit).2.hasCrates
      = (splitLines content).any (fun l => trimSpace l == cratesIOHeader))
    ∧ ((cargoLoop (!containsSub content rwKey) (splitLines content) []
        cargoInit).2.hasSource
      = (cargoLoop (!containsSub content rwKey) (splitLines content) []
        cargoInit).2.hasCrates)
    ∧ (cargoEnableLines u content =
        if (cargoLoop (!containsSub content rwKey) (splitLines content) []
            cargoInit).2.hasCrates = false then
          cargoAppendNew u (cargoLoop (!containsSub content rwKey)
            (splitLines content) [] cargoInit).1
        else if containsSub content ustcHeader = false then
          (cargoLoop (!containsSub content rwKey) (splitLines content) []
            cargoInit).1 ++ [[], ustcHeader, cargoRegistryLine u]
        else (cargoLoop (!containsSub content rwKey) (splitLines content) []
          cargoInit).1) := by
  intro u content
  refine ⟨?_, ?_, ?_⟩
  · rw [cargoLoop_hasCrates]
    rfl
  · rw [cargoLoop_hasCrates, cargoLoop_hasSource]
    rfl
  · show (if ¬ (cargoLoop (!containsSub content rwKey) (splitLines content) []
          cargoInit).2.hasSource = true
        ∨ ¬ (cargoLoop (!containsSub content rwKey) (splitLines content) []
          cargoInit).2.hasCrates = true then
        cargoAppendNew u (cargoLoop (!containsSub content rwKey)
          (splitLines content) [] cargoInit).1
      else if ¬ containsSub content ustcHeader = true then
        (cargoLoop (!containsSub content rwKey) (splitLines content) []
          cargoInit).1 ++ [[], ustcHeader, cargoRegistryLine u]
      else (cargoLoop (!containsSub content rwKey) (splitLines content) []
        cargoInit).1) = _
    have hs : (cargoLoop (!containsSub content rwKey) (splitLines content) []
        cargoInit).2.hasSource
      = (cargoLoop (!containsSub content rwKey) (splitLines content) []
        cargoInit).2.hasCrates := by
      rw [cargoLoop_hasCrates, cargoLoop_hasSource]
      rfl
    by_cases hc : (cargoLoop (!containsSub content rwKey) (splitLines content)
        [] cargoInit).2.hasCrates = true
    · by_cases hx : containsSub content ustcHeader = true
      · simp [hs, hc, hx]
      · simp [hs, hc, hx]
    · simp [hs, hc]

/-- Claim C4 counterexample: input `[source.crates-io]` alone — the
crates-io section exists but `replace-with` never did.  The claim says
the pair and the ustc block must both be appended (so a `replace-with`
line must appear); the code appends only the `[source.ustc]` block and
the result contains no `replace-with` line. -/
theorem crosh_c4_counterexample :
    rwLine ∉ cargoEnableLines (str "u") (str "[source.crates-io]") := by
  decide

/-- Claim C5 (amended): on the non-Docker-Desktop path, `Enable` on an
existing daemon.json whose bytes fail JSON parsing first copies the
original bytes to the `.backup` sibling and proceeds with an empty
object, and — when the configured registry list is non-empty — writes a
fresh valid JSON file containing only the `registry-mirrors` key (with
an empty list the fresh file is the empty object and lacks the key);
`Disable` on such a file does NOT recover: it returns the parse error,
writing nothing and making no backup. -/
theorem crosh_c5_amended : ∀ (regs : List Str) (raw : Str) (b : Option Str),
    regs ≠ [] →
    dockerEnable false regs ⟨.corrupt raw, b⟩
      = ⟨.valid [(registryMirrorsKey,
          .arr (regs.map (fun r => .s (formatRegistry r))))], some raw⟩
    ∧ dockerDisable false ⟨.corrupt raw, b⟩ = .error () := by
  intro regs raw b hr
  exact ⟨dockerEnable_corrupt regs raw b hr, rfl⟩

/-- Claim C5 witness: the amended statement at one mirror host and a
concrete unparsable byte string. -/
theorem crosh_c5_witness :
    ([str "m.example"] ≠ ([] : List Str)) ∧
    (dockerEnable false [str "m.example"] ⟨.corrupt (str "not json"), none⟩
      = ⟨.valid [(registryMirrorsKey,
          .arr [.s (str "https://m.example")])], some (str "not json")⟩
    ∧ dockerDisable false ⟨.corrupt (str "not json"), none⟩ = .error ()) := by
  refine ⟨by decide, ?_⟩
  have h := crosh_c5_amended [str "m.example"] (str "not json") none (by decide)
  refine ⟨?_, h.2⟩
  rw [h.1]
  decide

/-- Claim C5 counterexample: the claim covers "the mutator's operations"
on an unparsable file, but `Disable` neither creates a backup nor
proceeds with an empty object — it fails with the parse error and the
filesystem is untouched. -/
theorem crosh_c5_counterexample :
    dockerDisable false ⟨.corrupt (str "not json"), none⟩ = .error () := rfl

/-- Claim C6: the pip Enable scan inserts `index-url = <url>` immediately
before the next section header when the scan is inside `[global]` and no
index-url has been written yet; replaces an `index-url` line in place
while inside `[global]`; and, when no line of the file trims to
`[global]`, appends `[global]` followed by the managed key at
end-of-file (after the blank-dropping filter of the scan). -/
theorem crosh_c6_pip_insertion : ∀ (u : Str),
    (∀ (st : PipSt) (l : Str), st.inGlobal = true → st.hasIndexURL = false →
      startsWith (trimSpace l) lbrack = true → ¬ trimSpace l = globalHeader →
      pipStep u st l = ([indexLine u, l],
        { st with hasIndexURL := true, inGlobal := false }))
    ∧ (∀ (st : PipSt) (l : Str), st.inGlobal = true →
      startsWith (trimSpace l) indexKey = true →
      pipStep u st l = ([indexLine u], { st with hasIndexURL := true }))
    ∧ (∀ content : Str,
      (∀ l ∈ splitLines content, ¬ trimSpace l = globalHeader) →
      pipEnableLines u (splitLines content)
        = (splitLines content).filter (fun l => !(trimSpace l).isEmpty)
          ++ [globalHeader, indexLine u]) := by
  intro u
  refine ⟨?_, ?_, ?_⟩
  · intro st l hG hI h2 h1
    exact pipStep_header_insert u st l h1 h2 hG hI
  · intro st l hG hK
    rcases startsWith_indexKey_facts hK with ⟨h1, h2⟩
    exact pipStep_replace u st l h1 (by rw [h2]; decide) hG hK
  · intro content hng
    show (pipLoop u (splitLines content) pipInit).1
        ++ pipTail u (pipLoop u (splitLines content) pipInit).2 = _
    rw [show pipInit = (⟨false, false, false⟩ : PipSt) from rfl,
      pipLoop_no_global u (splitLines content) hng false false]
    rfl

/-- Claim C6 witness: the three clauses at concrete inputs — the managed
key inserted before `[other]`, a bare `index-url=old` replaced inside
`[global]`, and a file with no `[global]` section getting the section
appended at end-of-file. -/
theorem crosh_c6_witness :
    pipStep (str "u") ⟨true, false, true⟩ (str "[other]")
      = ([indexLine (str "u"), str "[other]"], ⟨true, true, false⟩)
    ∧ pipStep (str "u") ⟨true, false, true⟩ (str "index-url=old")
      = ([indexLine (str "u")], ⟨true, true, true⟩)
    ∧ pipEnableLines (str "u") (splitLines (str "x = 1"))
      = (splitLines (str "x = 1")).filter (fun l => !(trimSpace l).isEmpty)
        ++ [globalHeader, indexLine (str "u")] :=
  ⟨(crosh_c6_pip_insertion (str "u")).1 ⟨true, false, true⟩ (str "[other]")
      rfl rfl (by decide) (by decide),
   (crosh_c6_pip_insertion (str "u")).2.1 ⟨true, false, true⟩
      (str "index-url=old") rfl (by decide),
   (crosh_c6_pip_insertion (str "u")).2.2 (str "x = 1") (by decide)⟩

/-- Claim C7: npm Enable replaces every line whose trimmed form starts
with `registry=` (all occurrences), drops all blank lines while keeping
the remaining foreign lines in order, and appends `registry=<url>` as
the last line exactly when no matching line existed; npm Status reads
the value from the first matching line only.  Stated as equality of the
source-faithful loops with the spec-shaped `filter`/`map`/`find?`
descriptions. -/
theorem crosh_c7_npm_rewrite : ∀ (u : Str) (L : List Str),
    npmEnableLines u L = npmEnableSpec u L
    ∧ npmStatusLoop L = npmStatusSpec L := by
  intro u L
  exact ⟨npmEnableLines_eq_spec u L, npmStatusLoop_eq_spec L⟩

/-- Claim C8 (amended): no Status call ever creates, modifies or removes
the managed file — but the pip and cargo Status calls do mutate the
filesystem: their path resolution runs `os.MkdirAll` on the parent
configuration directory, creating it when missing.  The npm, docker and
go Status calls only read (their embeddings are pure functions of the
file and environment). -/
theorem crosh_c8_amended : ∀ fs : DirFS,
    (pipStatus fs).1.file = fs.file ∧ (pipStatus fs).1.dirExists = true
    ∧ (cargoStatus fs).1.file = fs.file
    ∧ (cargoStatus fs).1.dirExists = true := by
  intro fs
  exact ⟨rfl, rfl, rfl, rfl⟩

/-- Claim C8 counterexample: calling pip Status with the config
directory missing changes the filesystem — the directory exists
afterwards — refuting "Status leaves the filesystem unchanged". -/
theorem crosh_c8_counterexample :
    ¬ (pipStatus ⟨false, none⟩).1 = ⟨false, none⟩ := by
  decide

/-- Claim C9: go Status returns `(true, value)` exactly when the
`GOPROXY` environment variable is non-empty, with the description equal
to that variable's value, and `(false, "default proxy")` otherwise; the
result never depends on the rc-file content. -/
theorem crosh_c9_go_status : ∀ (env : Str) (rc : Option Str),
    goStatus env rc
      = (if env.isEmpty then (false, str "default proxy") else (true, env))
    ∧ (∀ rc2 : Option Str, goStatus env rc = goStatus env rc2) := by
  intro env rc
  constructor
  · cases env with
    | nil => rfl
    | cons c cs =>
      show (if ¬ (c :: cs : Str) = [] then (true, (c :: cs : Str))
        else (false, str "default proxy")) = _
      rw [if_pos (by simp)]
      rfl
  · intro rc2
    rfl

/-- Claim C10 (amended): when the config file contains the substring
`[source.ustc]` AND at least one line anywhere in the file whose trimmed
form starts with `registry` and contains `'='`, cargo Status returns
true with that first line's right-hand side (trimmed, quotes stripped) —
which can come from a line outside the `[source.ustc]` section, as the
second clause demonstrates; with no such line it returns
`(false, "default registry")` even though the substring is present. -/
theorem crosh_c10_amended :
    (∀ (content l : Str) (pr : Str × Str),
      containsSub content ustcHeader = true →
      (splitLines content).find? cargoStatusMatch = some l →
      splitEq1 (trimSpace l) = some pr →
      cargoStatusResult (some content)
        = (true, trimChar (Char.ofNat 34) (trimSpace pr.2)))
    ∧ cargoStatusResult (some (str "[other]" ++ '\n'
        :: (str "registry = \"evil\"" ++ '\n' :: str "[source.ustc]")))
      = (true, str "evil") := by
  constructor
  · intro content l pr hu hfind hsp
    show (if containsSub content ustcHeader = true then
        match cargoStatusLoop (splitLines content) with
        | some v => (true, v)
        | none => (false, str "default registry")
      else (false, str "default registry")) = _
    rw [if_pos hu, cargoStatusLoop_find, hfind]
    simp [hsp]
  · decide

/-- Claim C10 witness: the amended statement at a file whose only
registry line sits under `[source.ustc]`. -/
theorem crosh_c10_witness :
    (containsSub (str "[source.ustc]" ++ '\n' :: str "registry = \"m\"")
      ustcHeader = true)
    ∧ ((splitLines (str "[source.ustc]" ++ '\n' :: str "registry = \"m\"")).find?
        cargoStatusMatch = some (str "registry = \"m\""))
    ∧ (splitEq1 (trimSpace (str "registry = \"m\""))
        = some (str "registry ", str " \"m\""))
    ∧ cargoStatusResult (some (str "[source.ustc]" ++ '\n'
        :: str "registry = \"m\""))
      = (true, trimChar (Char.ofNat 34) (trimSpace (str " \"m\""))) := by
  refine ⟨by decide, by decide, by decide, ?_⟩
  exact crosh_c10_amended.1 _ (str "registry = \"m\"")
    (str "registry ", str " \"m\"") (by decide) (by decide) (by decide)

/-- Claim C10 counterexample: a file containing `[source.ustc]` but no
`registry` line at all — the claim says Status returns true, the code
returns `(false, "default registry")`. -/
theorem crosh_c10_counterexample :
    cargoStatusResult (some (str "[source.ustc]"))
      = (false, str "default registry") := by
  decide
